import Mathlib

/-!
Shallow embedding of the n-puzzle solver from
`search-agents/n-puzzle-solver/npuzzle.py` (class `State`, class
`NPuzzleSolver`) and `search-agents/n-puzzle-solver/driver3.py`
(class `BfsSolver`), together with proofs about the embedded program.

Modelling conventions:
* Python lists of tiles become `List Nat`; machine integers that can go
  negative (candidate row/column indices, Manhattan distances, A* stats
  `f`/`g`/`h`) become `Int`; Python's arbitrary-precision non-negative
  quantities become `Nat`.
* `int(math.sqrt(n))` is modelled by `Nat.sqrt` (they agree on every
  board size the program can hold in memory).
* A Python `set` of `State`s hashes/compares by the tile list only
  (`__hash__`/`__eq__`), so it is modelled by a duplicate-free
  `List (List Nat)` with membership tested by list equality.
* `queue.PriorityQueue` is `heapq` under the hood; the heap algorithms
  (`heappush`/`heappop` with `_siftup`/`_siftdown`) are embedded
  verbatim on a `List` used as the array, comparing with `State.__lt__`.
* Exceptions that the program never triggers from its entry points
  (popping an empty frontier) are modelled by a `stuck` outcome.
* Wall-clock time, logging and memory statistics are omitted: they do
  not influence the search or any of the returned path data.
-/

namespace NPuzzle

/-- The four blank-move labels ("Up"/"Down"/"Left"/"Right" strings in the
source). -/
inductive Move where
  | Up
  | Down
  | Left
  | Right
deriving DecidableEq, Repr

/-- Embedding of class `State` of `npuzzle.py`: the tile configuration plus
the metadata fields the class carries (parent link, depth, cached blank
position, A* stats).  The class is recursive through `parent`, hence an
inductive type. -/
inductive State where
  | mk (tiles : List Nat) (dimensions : Nat) (parent : Option State)
      (depth : Nat) (empty_row : Nat) (empty_col : Nat)
      (number_of_moves : Nat) (parent_move : Option Move)
      (f : Int) (g : Int) (h : Int)

def State.tiles : State → List Nat
  | .mk t _ _ _ _ _ _ _ _ _ _ => t

def State.dimensions : State → Nat
  | .mk _ d _ _ _ _ _ _ _ _ _ => d

def State.parent : State → Option State
  | .mk _ _ p _ _ _ _ _ _ _ _ => p

def State.depth : State → Nat
  | .mk _ _ _ d _ _ _ _ _ _ _ => d

def State.empty_row : State → Nat
  | .mk _ _ _ _ r _ _ _ _ _ _ => r

def State.empty_col : State → Nat
  | .mk _ _ _ _ _ c _ _ _ _ _ => c

def State.number_of_moves : State → Nat
  | .mk _ _ _ _ _ _ n _ _ _ _ => n

def State.parent_move : State → Option Move
  | .mk _ _ _ _ _ _ _ m _ _ _ => m

def State.f : State → Int
  | .mk _ _ _ _ _ _ _ _ x _ _ => x

def State.g : State → Int
  | .mk _ _ _ _ _ _ _ _ _ x _ => x

def State.h : State → Int
  | .mk _ _ _ _ _ _ _ _ _ _ x => x

/-- A default `State`, used only as the out-of-range placeholder of the
heap array accesses (never actually read on in-range indices). -/
def dfltState : State := .mk [] 0 none 0 0 0 0 none 0 0 0

/-- Descending linear search for the integer square root: the largest
`j ≤ k` with `j * j ≤ n`. -/
def intSqrtGo (n : Nat) : Nat → Nat
  | 0 => 0
  | k + 1 => if (k + 1) * (k + 1) ≤ n then k + 1 else intSqrtGo n k

/-- `int(math.sqrt(n))`: the floor of the square root (what the Python
expression yields on every board the program can hold).  Defined by
structural recursion so that concrete runs reduce inside the kernel. -/
def intSqrt (n : Nat) : Nat := intSqrtGo n n

/-- `State.__init__`: store the configuration, derive `dimensions` as the
integer square root of the length and the blank position from the first
index of `0` (`state_array.index(0)`). -/
def State.init (state_array : List Nat) (parent : Option State) (depth : Nat) :
    State :=
  let dimensions := intSqrt state_array.length
  let empty_index := state_array.indexOf 0
  .mk state_array dimensions parent depth (empty_index / dimensions)
    (empty_index % dimensions) 0 none 0 0 0

@[simp] theorem State.tiles_mk (t d p dep er ec n m f g h) :
    (State.mk t d p dep er ec n m f g h).tiles = t := rfl

@[simp] theorem State.dimensions_mk (t d p dep er ec n m f g h) :
    (State.mk t d p dep er ec n m f g h).dimensions = d := rfl

@[simp] theorem State.parent_mk (t d p dep er ec n m f g h) :
    (State.mk t d p dep er ec n m f g h).parent = p := rfl

@[simp] theorem State.depth_mk (t d p dep er ec n m f g h) :
    (State.mk t d p dep er ec n m f g h).depth = dep := rfl

@[simp] theorem State.empty_row_mk (t d p dep er ec n m f g h) :
    (State.mk t d p dep er ec n m f g h).empty_row = er := rfl

@[simp] theorem State.empty_col_mk (t d p dep er ec n m f g h) :
    (State.mk t d p dep er ec n m f g h).empty_col = ec := rfl

@[simp] theorem State.number_of_moves_mk (t d p dep er ec n m f g h) :
    (State.mk t d p dep er ec n m f g h).number_of_moves = n := rfl

@[simp] theorem State.parent_move_mk (t d p dep er ec n m f g h) :
    (State.mk t d p dep er ec n m f g h).parent_move = m := rfl

@[simp] theorem State.f_mk (t d p dep er ec n m f g h) :
    (State.mk t d p dep er ec n m f g h).f = f := rfl

@[simp] theorem State.g_mk (t d p dep er ec n m f g h) :
    (State.mk t d p dep er ec n m f g h).g = g := rfl

@[simp] theorem State.h_mk (t d p dep er ec n m f g h) :
    (State.mk t d p dep er ec n m f g h).h = h := rfl

/-- `State.compute_manhattan`: sum over every index of the board of the
Manhattan distance from each non-blank tile's position to its goal
position (`correctRow = tile // dim`, `correctCol = tile % dim`). -/
def State.compute_manhattan (s : State) : Int :=
  (List.range s.tiles.length).foldl
    (fun dist i =>
      let tile := s.tiles.getD i 0
      if tile ≠ 0 then
        let rowTile := i / s.dimensions
        let colTile := i % s.dimensions
        let correctRow := tile / s.dimensions
        let correctCol := tile % s.dimensions
        let md := |(rowTile : Int) - (correctRow : Int)| +
          |(colTile : Int) - (correctCol : Int)|
        dist + md
      else dist)
    0

/-- `State.process_astar_stats`: set `g` to the depth, `h` to the
Manhattan score and `f = g + h`. -/
def State.process_astar_stats (s : State) : State :=
  match s with
  | .mk t dim p dep er ec n m _ _ _ =>
    let g : Int := dep
    let h : Int := (State.mk t dim p dep er ec n m 0 0 0).compute_manhattan
    .mk t dim p dep er ec n m (g + h) g h

/-- `State.is_valid`: a candidate blank position is valid iff the row and
column both lie in `[0, dimensions)`. -/
def State.is_valid (s : State) (row col : Int) : Bool :=
  if 0 ≤ row ∧ row < (s.dimensions : Int) ∧ 0 ≤ col ∧ col < (s.dimensions : Int)
  then true else false

/-- `State.move_empty_to`: swap the blank with the tile at `(row, col)`,
build the child via `State.__init__` with `depth + 1`, and compute its A*
stats.  All call sites pass a valid (hence non-negative, in-range)
position, so the `Int.toNat` index conversion is exact. -/
def State.move_empty_to (s : State) (row col : Int) : State :=
  let idx := (row * (s.dimensions : Int) + col).toNat
  let existing_element := s.tiles.getD idx 0
  let new_list :=
    (s.tiles.set idx 0).set (s.empty_row * s.dimensions + s.empty_col)
      existing_element
  (State.init new_list (some s) (s.depth + 1)).process_astar_stats

/-- `State.move_up`. -/
def State.move_up (s : State) : Option State :=
  let to_swap_row : Int := (s.empty_row : Int) - 1
  let to_swap_col : Int := (s.empty_col : Int)
  if s.is_valid to_swap_row to_swap_col then
    some (s.move_empty_to to_swap_row to_swap_col)
  else none

/-- `State.move_down`. -/
def State.move_down (s : State) : Option State :=
  let to_swap_row : Int := (s.empty_row : Int) + 1
  let to_swap_col : Int := (s.empty_col : Int)
  if s.is_valid to_swap_row to_swap_col then
    some (s.move_empty_to to_swap_row to_swap_col)
  else none

/-- `State.move_left`. -/
def State.move_left (s : State) : Option State :=
  let to_swap_row : Int := (s.empty_row : Int)
  let to_swap_col : Int := (s.empty_col : Int) - 1
  if s.is_valid to_swap_row to_swap_col then
    some (s.move_empty_to to_swap_row to_swap_col)
  else none

/-- `State.move_right`. -/
def State.move_right (s : State) : Option State :=
  let to_swap_row : Int := (s.empty_row : Int)
  let to_swap_col : Int := (s.empty_col : Int) + 1
  if s.is_valid to_swap_row to_swap_col then
    some (s.move_empty_to to_swap_row to_swap_col)
  else none

/-- The two post-generation field assignments
`child.parent_move = label; child.number_of_moves = n`. -/
def State.withMoveInfo (s : State) (label : Move) (n : Nat) : State :=
  match s with
  | .mk t dim p dep er ec _ _ f g h =>
    .mk t dim p dep er ec n (some label) f g h

/-- `State.generate_possible_states`: attempt Up, Down, Left, Right in
that fixed order, keep the successful ones (tagging each with its move
label and `number_of_moves + 1`), silently dropping invalid moves. -/
def State.generate_possible_states (s : State) : List State :=
  let children : List State := []
  let children := match s.move_up with
    | some up => children ++ [up.withMoveInfo .Up (s.number_of_moves + 1)]
    | none => children
  let children := match s.move_down with
    | some down => children ++ [down.withMoveInfo .Down (s.number_of_moves + 1)]
    | none => children
  let children := match s.move_left with
    | some left => children ++ [left.withMoveInfo .Left (s.number_of_moves + 1)]
    | none => children
  let children := match s.move_right with
    | some right => children ++ [right.withMoveInfo .Right (s.number_of_moves + 1)]
    | none => children
  children

/-- The body of `NPuzzleSolver.isFinalState` on a raw tile list: all
positions up to (and excluding) `N - 1` hold their own index. -/
def goalCheck (tiles : List Nat) : Bool :=
  (List.range (tiles.length - 1)).all (fun i => tiles.getD i 0 == i)

/-- `NPuzzleSolver.isFinalState`. -/
def NPuzzleSolver.isFinalState (state : State) : Bool :=
  goalCheck state.tiles

/-- `NPuzzleSolver.get_solution_moves`: climb the parent chain collecting
each node's `parent_move` (the root contributes nothing), in
root-to-goal order. -/
def get_solution_moves : State → List Move
  | .mk _ _ p _ _ _ _ m _ _ _ =>
    (match p with
      | none => []
      | some q => get_solution_moves q) ++ m.toList

/-- `State.__lt__`: `self < other` iff `other.f >= self.f`. -/
def ltState (self other : State) : Bool :=
  decide (other.f ≥ self.f)

/-!  `queue.PriorityQueue` is a thin wrapper around `heapq`; the heap
algorithms are embedded verbatim, with the Python list as a `List State`
indexed through `getD`/`set` (all accesses are in range at call sites). -/

/-- `heapq._siftdown(heap, startpos, pos)` with `newitem` the value read
from `heap[pos]` on entry (the slot is only ever overwritten afterwards,
so it is threaded as an argument).  The position strictly decreases on
every loop iteration, so structural fuel equal to the entry position
(supplied by `siftdown`) is never exhausted. -/
def siftdownFuel : Nat → List State → Nat → Nat → State → List State
  | 0, heap, _, pos, newitem => heap.set pos newitem
  | fuel + 1, heap, startpos, pos, newitem =>
    if startpos < pos then
      let parentpos := (pos - 1) / 2
      let parent := heap.getD parentpos dfltState
      if ltState newitem parent then
        siftdownFuel fuel (heap.set pos parent) startpos parentpos newitem
      else heap.set pos newitem
    else heap.set pos newitem

/-- `heapq._siftdown`. -/
def siftdown (heap : List State) (startpos pos : Nat) (newitem : State) :
    List State :=
  siftdownFuel pos heap startpos pos newitem

/-- `heapq.heappush`: append then sift down from the new slot. -/
def heappush (heap : List State) (item : State) : List State :=
  siftdown (heap ++ [item]) 0 heap.length item

/-- `heapq._siftup(heap, pos)` with `newitem` the value read from
`heap[pos]` on entry and `startpos` fixed to the entry position.  The
position strictly increases towards the end of the array on every loop
iteration, so structural fuel equal to the array length (supplied by
`siftup`) is never exhausted; the fuel-out branch coincides with the
loop exit. -/
def siftupFuel : Nat → List State → Nat → State → Nat → List State
  | 0, heap, pos, newitem, startpos => siftdown (heap.set pos newitem) startpos pos newitem
  | fuel + 1, heap, pos, newitem, startpos =>
    let endpos := heap.length
    let childpos := 2 * pos + 1
    if childpos < endpos then
      let childpos :=
        if childpos + 1 < endpos ∧
            ¬ ltState (heap.getD childpos dfltState)
              (heap.getD (childpos + 1) dfltState) = true then
          childpos + 1
        else childpos
      siftupFuel fuel (heap.set pos (heap.getD childpos dfltState)) childpos
        newitem startpos
    else siftdown (heap.set pos newitem) startpos pos newitem

/-- `heapq._siftup`. -/
def siftup (heap : List State) (pos : Nat) (newitem : State) (startpos : Nat) :
    List State :=
  siftupFuel heap.length heap pos newitem startpos

/-- `heapq.heappop`: pop the last element; if the heap is still
non-empty, return the old root, move the last element to the root and
sift it up.  `none` models the blocking/raising behaviour on an empty
queue, which the solver never triggers. -/
def heappop (heap : List State) : Option (State × List State) :=
  if heap.isEmpty then none
  else
    let lastelt := heap.getLastD dfltState
    let rest := heap.dropLast
    if rest.isEmpty then some (lastelt, [])
    else some (rest.getD 0 dfltState, siftup (rest.set 0 lastelt) 0 lastelt 0)

/-- The strategy selector (`"bfs"` / `"dfs"` / anything else, which the
constructor routes to the A* branch; the program only ever passes
`"ast"` there). -/
inductive Algo where
  | bfs
  | dfs
  | ast
deriving DecidableEq, Repr

/-- The stats dictionary built by `NPuzzleSolver.solve` on success.
`time` (wall clock) is omitted. -/
structure Stats where
  nodes_expanded : Nat
  search_depth : Nat
  max_search_depth : Nat
  cost_of_path : Nat
  path : List Move
deriving DecidableEq, Repr

/-- The mutable state of an `NPuzzleSolver` object: the frontier
(`collections.deque` for BFS/DFS, the `heapq` array for A*, both as a
`List State`), the frontier membership set and the explored set. -/
structure Solver where
  algo : Algo
  initial_state : State
  frontier : List State
  frontier_set : List (List Nat)
  explored : List (List Nat)

/-- The class-level attributes of `NPuzzleSolver`.  In the source,
`frontier_set = set()` and `explored = set()` are class attributes that
are mutated but never rebound, so they are shared by every instance of
the class; a constructor therefore starts from whatever a previous
instance left in them. -/
structure ClassState where
  frontier_set : List (List Nat)
  explored : List (List Nat)

/-- `set.add`: append iff not already present. -/
def addSet (s : List (List Nat)) (t : List Nat) : List (List Nat) :=
  if t ∈ s then s else s ++ [t]

/-- `NPuzzleSolver.__init__`: fresh frontier seeded with the initial
state (deque append for BFS/DFS, `PriorityQueue.put` otherwise), the
initial board added to the shared class-level `frontier_set`, and the
shared class-level `explored` left as is. -/
def NPuzzleSolver.init (cls : ClassState) (algo : Algo) (initial_state : State) :
    Solver :=
  let frontier : List State :=
    match algo with
    | .bfs | .dfs => [] ++ [initial_state]
    | .ast => heappush [] initial_state
  { algo := algo
    initial_state := initial_state
    frontier := frontier
    frontier_set := addSet cls.frontier_set initial_state.tiles
    explored := cls.explored }

/-- The class attributes an `NPuzzleSolver` leaves behind for the next
instance constructed in the same process. -/
def classStateOf (slv : Solver) : ClassState :=
  ⟨slv.frontier_set, slv.explored⟩

/-- One strategy-dependent frontier removal: `popleft` for BFS, `pop`
for DFS, `PriorityQueue.get` (a heap pop) for A*. -/
def popCur : Algo → List State → Option (State × List State)
  | .bfs, f =>
    match f with
    | [] => none
    | c :: rest => some (c, rest)
  | .dfs, f =>
    match f.getLast? with
    | none => none
    | some c => some (c, f.dropLast)
  | .ast, f => heappop f

/-- The body of the neighbor loop of `NPuzzleSolver.solve`: skip a
neighbor already in the explored set or the frontier membership set,
otherwise insert it into the frontier (strategy-dependent) and the
membership set and update `maxdepth`. -/
def insertNeighbor (slv : Solver) (maxdepth : Nat) (n : State) : Solver × Nat :=
  if n.tiles ∈ slv.explored ∨ n.tiles ∈ slv.frontier_set then (slv, maxdepth)
  else
    let frontier :=
      match slv.algo with
      | .bfs | .dfs => slv.frontier ++ [n]
      | .ast => heappush slv.frontier n
    ({ slv with
        frontier := frontier
        frontier_set := slv.frontier_set ++ [n.tiles] },
      if n.depth > maxdepth then n.depth else maxdepth)

/-- Outcome of one iteration of the `while` loop of
`NPuzzleSolver.solve`: return the stats dict, exit the loop and return
`None`, or continue; `stuck` is the (unreachable from the entry points)
pop of an empty frontier, which in Python would raise.  The solver state
is carried along because the class-level sets survive the call. -/
inductive StepOut where
  | success (stats : Stats) (slv : Solver)
  | failure (slv : Solver)
  | next (slv : Solver) (maxdepth : Nat)
  | stuck

/-- One iteration of the `while` loop of `NPuzzleSolver.solve`: pop the
current state per strategy, drop it from the frontier membership set,
return the stats on the goal test, otherwise generate neighbors (in
reverse order for DFS), insert the fresh ones, add the current board to
the explored set, and exit with `None` if the frontier emptied. -/
def solveBody (slv : Solver) (maxdepth : Nat) : StepOut :=
  match popCur slv.algo slv.frontier with
  | none => .stuck
  | some (current_state, rest) =>
    let slv := { slv with
      frontier := rest
      frontier_set := slv.frontier_set.erase current_state.tiles }
    if NPuzzleSolver.isFinalState current_state then
      .success
        { nodes_expanded := slv.explored.length
          search_depth := current_state.depth
          max_search_depth := maxdepth
          cost_of_path := (get_solution_moves current_state).length
          path := get_solution_moves current_state }
        slv
    else
      let neighbors := current_state.generate_possible_states
      let neighbors := if slv.algo = .dfs then neighbors.reverse else neighbors
      let p := neighbors.foldl (fun (p : Solver × Nat) n => insertNeighbor p.1 p.2 n)
        (slv, maxdepth)
      let slv := { p.1 with explored := addSet p.1.explored current_state.tiles }
      if slv.frontier.isEmpty then .failure slv else .next slv p.2

/-- The `while` loop of `NPuzzleSolver.solve`, fuel-indexed: `none`
means the fuel ran out (or the unreachable `stuck` case), `some none`
is the `None` returned for an exhausted frontier, `some (some stats)`
is success. -/
def solveLoop : Nat → Solver → Nat → Option (Option Stats)
  | 0, _, _ => none
  | fuel + 1, slv, maxdepth =>
    match solveBody slv maxdepth with
    | .success stats _ => some (some stats)
    | .failure _ => some none
    | .stuck => none
    | .next slv' maxdepth' => solveLoop fuel slv' maxdepth'

/-- A whole solver run from a fresh process (empty class-level sets), as
`__main__` performs it: build the initial `State` from the tile list,
construct the solver and run `solve`. -/
def NPuzzleSolver.solve (algo : Algo) (b : List Nat) (fuel : Nat) :
    Option (Option Stats) :=
  solveLoop fuel (NPuzzleSolver.init ⟨[], []⟩ algo (State.init b none 0)) 0

/-- `k` loop iterations of `NPuzzleSolver.solve` that all continue;
`none` if the run returns (either way) or gets stuck earlier. -/
def runSteps : Nat → Solver × Nat → Option (Solver × Nat)
  | 0, p => some p
  | k + 1, p =>
    match solveBody p.1 p.2 with
    | .next slv' maxdepth' => runSteps k (slv', maxdepth')
    | _ => none

/-- Run the loop to a successful return, also yielding the solver state
(hence the class-level sets) at the moment of the return. -/
def runSolve : Nat → Solver × Nat → Option (Stats × Solver)
  | 0, _ => none
  | fuel + 1, p =>
    match solveBody p.1 p.2 with
    | .success stats slv => some (stats, slv)
    | .next slv' maxdepth' => runSolve fuel (slv', maxdepth')
    | _ => none

namespace Driver3

/-- The mutable state of a `driver3.BfsSolver`: a frontier deque and the
explored set, with no frontier membership set.  `driver3.State` differs
from `npuzzle.State` only in lacking the A* stats fields (which
`BfsSolver` never reads), so the board states are shared. -/
structure SolverSt where
  frontier : List State
  explored : List (List Nat)

/-- One iteration of the `while len(frontier) != 0` loop of
`driver3.BfsSolver.solve`: pop left, stop on the goal, else append every
neighbor that is not in the explored set (the frontier is not checked),
then add the current board to the explored set.  `none` models both
returns (goal reached, or loop exhausted). -/
def solveBody (s : SolverSt) : Option SolverSt :=
  match s.frontier with
  | [] => none
  | current_state :: rest =>
    if NPuzzleSolver.isFinalState current_state then none
    else
      let neighbors := current_state.generate_possible_states
      let frontier := neighbors.foldl
        (fun acc n => if n.tiles ∈ s.explored then acc else acc ++ [n]) rest
      some ⟨frontier, addSet s.explored current_state.tiles⟩

/-- `k` expansion iterations of `driver3.BfsSolver.solve`. -/
def runSteps : Nat → SolverSt → Option SolverSt
  | 0, s => some s
  | k + 1, s => (solveBody s).bind (runSteps k)

/-- `driver3.BfsSolver.__init__` (on a fresh process): frontier seeded
with the initial state, empty explored set. -/
def mkSolver (initial_state : State) : SolverSt :=
  ⟨[] ++ [initial_state], []⟩

end Driver3

/-! ### Generic list helpers -/

theorem set_getD_self (l : List Nat) (i : Nat) (h : i < l.length) :
    l.set i (l.getD i 0) = l := by
  apply List.ext_getElem
  · simp
  · intro j h1 h2
    by_cases hij : i = j
    · subst hij
      rw [List.getElem_set_self h1, List.getD_eq_getElem l 0 h2]
    · exact List.getElem_set_ne hij h1

theorem foldl_add_int (g : Nat → Int) :
    ∀ (L : Nat) (a : Int),
      (List.range L).foldl (fun acc i => acc + g i) a =
        a + ∑ i ∈ Finset.range L, g i := by
  intro L
  induction L with
  | zero => simp
  | succ L ih =>
    intro a
    rw [List.range_succ, List.foldl_append, ih, Finset.sum_range_succ]
    simp [add_assoc]

theorem getD_range (L i : Nat) (h : i < L) : (List.range L).getD i 0 = i := by
  rw [List.getD_eq_getElem _ 0 (by simpa using h)]
  exact List.getElem_range i _

/-! ### C10: the `__lt__` comparison used by the A* priority queue -/

/-- C10.  `State.__lt__` is the non-strict comparison by total cost: for
all states `a` and `b`, `a < b` holds iff `a.f ≤ b.f`; hence whenever
`a.f = b.f` both `a < b` and `b < a` hold, and every state compares
less-than itself. -/
theorem ltState_nonstrict (a b : State) :
    (ltState a b = true ↔ a.f ≤ b.f) ∧ ltState a a = true ∧
      (a.f = b.f → ltState a b = true ∧ ltState b a = true) := by
  refine ⟨?_, ?_, ?_⟩
  · simp [ltState, ge_iff_le]
  · simp [ltState]
  · intro hf
    simp [ltState, ge_iff_le, hf]

/-- Witness for C10 at two concrete equal-`f` states. -/
theorem ltState_nonstrict_witness :
    dfltState.f = dfltState.f ∧
      (ltState dfltState dfltState = true ∧ ltState dfltState dfltState = true) :=
  ⟨rfl, (ltState_nonstrict dfltState dfltState).2.2 rfl⟩

/-! ### C9: the A* stats of search nodes -/

/-- C9 counterexample.  The claim says every node reachable by the A*
engine, including the root, has `h` equal to its board's Manhattan
score.  But `process_astar_stats` is only invoked inside
`move_empty_to`, never on the root built by `State.__init__`: for the
initial board `[1,0,2,3]` the (unique) node of the freshly constructed
A* frontier carries `h = 0` while its Manhattan score is `1`. -/
theorem astar_root_missing_stats :
    ((NPuzzleSolver.init ⟨[], []⟩ .ast
        (State.init [1, 0, 2, 3] none 0)).frontier.map
      (fun s => (s.h, s.compute_manhattan))) = [(0, 1)] ∧ (0 : Int) ≠ 1 := by
  exact ⟨rfl, by decide⟩

/-- C9 amended.  Every non-root search node — i.e. every node produced
by `move_empty_to`, before and after the `parent_move`/`number_of_moves`
bookkeeping of `generate_possible_states` — satisfies `g = depth`,
`h = compute_manhattan` and `f = g + h`; the root keeps the class
defaults `f = g = h = 0` instead. -/
theorem astar_child_stats_consistent (s : State) (row col : Int)
    (label : Move) (n : Nat) :
    ((s.move_empty_to row col).g = ((s.move_empty_to row col).depth : Int) ∧
      (s.move_empty_to row col).h = (s.move_empty_to row col).compute_manhattan ∧
      (s.move_empty_to row col).f =
        (s.move_empty_to row col).g + (s.move_empty_to row col).h) ∧
    (((s.move_empty_to row col).withMoveInfo label n).g =
        (((s.move_empty_to row col).withMoveInfo label n).depth : Int) ∧
      ((s.move_empty_to row col).withMoveInfo label n).h =
        ((s.move_empty_to row col).withMoveInfo label n).compute_manhattan ∧
      ((s.move_empty_to row col).withMoveInfo label n).f =
        ((s.move_empty_to row col).withMoveInfo label n).g +
          ((s.move_empty_to row col).withMoveInfo label n).h) := by
  cases s with
  | mk t dim p dep er ec nm pm f g h =>
    constructor
    · refine ⟨rfl, ?_, rfl⟩
      simp [State.move_empty_to, State.init, State.process_astar_stats,
        State.compute_manhattan]
    · refine ⟨rfl, ?_, rfl⟩
      simp [State.move_empty_to, State.init, State.process_astar_stats,
        State.withMoveInfo, State.compute_manhattan]

/-! ### C5: the Manhattan heuristic -/

/-- C5.  For every board state, `compute_manhattan` equals the sum over
all non-blank tiles of `|actual_row - goal_row| + |actual_col - goal_col|`
with `goal_row = value / side` and `goal_col = value % side`; the value
is a non-negative integer, and it is `0` on the goal board of any side. -/
theorem manhattan_spec_nonneg_goal_zero :
    (∀ s : State,
      s.compute_manhattan =
        ∑ i ∈ Finset.range s.tiles.length,
          (if s.tiles.getD i 0 ≠ 0 then
            |((i / s.dimensions : Nat) : Int) -
                ((s.tiles.getD i 0 / s.dimensions : Nat) : Int)| +
              |((i % s.dimensions : Nat) : Int) -
                ((s.tiles.getD i 0 % s.dimensions : Nat) : Int)|
          else 0) ∧
      0 ≤ s.compute_manhattan) ∧
    ∀ n : Nat, (State.init (List.range (n * n)) none 0).compute_manhattan = 0 := by
  have key : ∀ s : State,
      s.compute_manhattan =
        ∑ i ∈ Finset.range s.tiles.length,
          (if s.tiles.getD i 0 ≠ 0 then
            |((i / s.dimensions : Nat) : Int) -
                ((s.tiles.getD i 0 / s.dimensions : Nat) : Int)| +
              |((i % s.dimensions : Nat) : Int) -
                ((s.tiles.getD i 0 % s.dimensions : Nat) : Int)|
          else 0) := by
    intro s
    have hfun : (fun (dist : Int) (i : Nat) =>
        let tile := s.tiles.getD i 0
        if tile ≠ 0 then
          let rowTile := i / s.dimensions
          let colTile := i % s.dimensions
          let correctRow := tile / s.dimensions
          let correctCol := tile % s.dimensions
          let md := |(rowTile : Int) - (correctRow : Int)| +
            |(colTile : Int) - (correctCol : Int)|
          dist + md
        else dist) =
        (fun (dist : Int) (i : Nat) => dist +
          (if s.tiles.getD i 0 ≠ 0 then
            |((i / s.dimensions : Nat) : Int) -
                ((s.tiles.getD i 0 / s.dimensions : Nat) : Int)| +
              |((i % s.dimensions : Nat) : Int) -
                ((s.tiles.getD i 0 % s.dimensions : Nat) : Int)|
          else 0)) := by
      funext dist i
      by_cases hc : s.tiles.getD i 0 = 0
      · simp only [hc]
        simp
      · simp only [ne_eq, hc, not_false_eq_true, if_true, ite_true]
    rw [State.compute_manhattan, hfun, foldl_add_int, zero_add]
  refine ⟨fun s => ⟨key s, ?_⟩, fun n => ?_⟩
  · rw [key s]
    apply Finset.sum_nonneg
    intro i _
    split
    · positivity
    · exact le_refl 0
  · rw [key]
    apply Finset.sum_eq_zero
    intro i hi
    rw [Finset.mem_range] at hi
    have hlen : (State.init (List.range (n * n)) none 0).tiles = List.range (n * n) :=
      rfl
    have hget : (State.init (List.range (n * n)) none 0).tiles.getD i 0 = i := by
      rw [hlen]
      exact getD_range _ _ (by simpa [hlen] using hi)
    rw [hget]
    simp

/-! ### C8: invalid inputs are not rejected -/

/-- C8 is refuted by the code: the tile sequence `[0,1,1]` is not a
permutation of `{0,1,2}` and its length `3` is not a perfect square, yet
no validation exists anywhere (`State.__init__` merely locates the first
`0`, `NPuzzleSolver.__init__` and `__main__` check nothing), so the
input flows straight into the search — which even returns a success
with cost `0`, because `isFinalState` only inspects positions `0` and
`1`.  The spec's requirement is the evident intent, so the missing
validation is a code bug. -/
theorem non_permutation_accepted :
    NPuzzleSolver.solve .bfs [0, 1, 1] 10 =
      some (some ⟨0, 0, 0, 0, []⟩) ∧
    ¬ ([0, 1, 1] : List Nat).Perm (List.range 3) ∧
    intSqrt 3 * intSqrt 3 ≠ 3 := by
  refine ⟨rfl, ?_, by decide⟩
  intro hp
  exact absurd (hp.count_eq 1) (by decide)

/-! ### C3: successor generation -/

/-- The contribution of one attempted move to the successor list: the
tagged child if the move succeeded, nothing if it was invalid. -/
def optChild (o : Option State) (label : Move) (s : State) : List State :=
  match o with
  | some c => [c.withMoveInfo label (s.number_of_moves + 1)]
  | none => []

/-- The move function attempted for each label. -/
def State.moveOf (s : State) : Move → Option State
  | .Up => s.move_up
  | .Down => s.move_down
  | .Left => s.move_left
  | .Right => s.move_right

/-- The row targeted by each move label. -/
def targetRow (s : State) : Move → Int
  | .Up => (s.empty_row : Int) - 1
  | .Down => (s.empty_row : Int) + 1
  | .Left => (s.empty_row : Int)
  | .Right => (s.empty_row : Int)

/-- The column targeted by each move label. -/
def targetCol (s : State) : Move → Int
  | .Up => (s.empty_col : Int)
  | .Down => (s.empty_col : Int)
  | .Left => (s.empty_col : Int) - 1
  | .Right => (s.empty_col : Int) + 1

/-- C3.  Successor generation attempts Up, Down, Left, Right in that
fixed order; a move contributes a successor exactly when its target row
and column lie in `[0, side)` (invalid moves are dropped silently — the
functions are total and produce `none`, never an error); consequently
the result is the UDLR-ordered concatenation of at most 4 children. -/
theorem generate_eq (s : State) :
    s.generate_possible_states =
      optChild s.move_up .Up s ++ optChild s.move_down .Down s ++
        optChild s.move_left .Left s ++ optChild s.move_right .Right s := by
  cases hu : s.move_up <;> cases hd : s.move_down <;>
    cases hl : s.move_left <;> cases hr : s.move_right <;>
    simp [State.generate_possible_states, optChild, hu, hd, hl, hr]

theorem generate_UDLR_bounds (s : State) :
    (s.generate_possible_states =
      optChild s.move_up .Up s ++ optChild s.move_down .Down s ++
        optChild s.move_left .Left s ++ optChild s.move_right .Right s) ∧
    (∀ mv : Move, (s.moveOf mv).isSome = true ↔
      (0 ≤ targetRow s mv ∧ targetRow s mv < (s.dimensions : Int) ∧
        0 ≤ targetCol s mv ∧ targetCol s mv < (s.dimensions : Int))) ∧
    s.generate_possible_states.length ≤ 4 := by
  have hgen := generate_eq s
  refine ⟨hgen, ?_, ?_⟩
  · intro mv
    cases mv <;>
      simp only [State.moveOf, State.move_up, State.move_down, State.move_left,
        State.move_right, State.is_valid, targetRow, targetCol] <;>
      split <;> simp_all
  · rw [hgen]
    cases s.move_up <;> cases s.move_down <;> cases s.move_left <;>
      cases s.move_right <;> simp [optChild]

/-! ### C2: the goal test -/

theorem goalCheck_range (L : Nat) : goalCheck (List.range L) = true := by
  apply List.all_eq_true.mpr
  intro i hi
  rw [List.mem_range] at hi
  have hlen : (List.range L).length = L := by simp
  rw [hlen] at hi
  have : (List.range L).getD i 0 = i := getD_range L i (by omega)
  simp only [beq_iff_eq]
  exact this

/-- The goal test is exact on permutations: checking only positions
`0 … N-2` decides equality with the canonical board. -/
theorem goalCheck_iff (t : List Nat) (hperm : t.Perm (List.range t.length)) :
    goalCheck t = true ↔ t = List.range t.length := by
  constructor
  · intro hall
    have hvals : ∀ i, i < t.length - 1 → t.getD i 0 = i := by
      intro i hi
      have hmem : i ∈ List.range (t.length - 1) := List.mem_range.mpr hi
      have := List.all_eq_true.mp hall i hmem
      simpa using this
    apply List.ext_getElem (by simp)
    intro i h1 h2
    rw [List.getElem_range]
    rcases lt_or_ge i (t.length - 1) with hlt | hge
    · rw [← List.getD_eq_getElem t 0 h1]
      exact hvals i hlt
    · have hieq : i = t.length - 1 := by omega
      subst hieq
      have hmem : t.length - 1 ∈ t := by
        refine hperm.mem_iff.mpr (List.mem_range.mpr ?_)
        omega
      rcases List.mem_iff_getElem.mp hmem with ⟨j, hj, hjv⟩
      rcases lt_or_ge j (t.length - 1) with hjlt | hjge
      · exfalso
        have hv := hvals j hjlt
        rw [List.getD_eq_getElem t 0 hj] at hv
        omega
      · have hjeq : j = t.length - 1 := by omega
        subst hjeq
        exact hjv
  · intro ht
    rw [ht]
    exact goalCheck_range t.length

/-- C2.  For every tile sequence that is a permutation of
`{0, …, N-1}` (hence contains the blank `0`), `isFinalState` is true iff
the sequence is the canonical sorted one: checking `tiles[i] = i` for
`i ∈ [0, N-1)` and leaving position `N-1` unchecked decides goal-ness
exactly. -/
theorem isFinalState_iff_canonical (s : State)
    (hperm : s.tiles.Perm (List.range s.tiles.length)) :
    NPuzzleSolver.isFinalState s = true ↔ s.tiles = List.range s.tiles.length :=
  goalCheck_iff s.tiles hperm

/-- Witness for C2 on the concrete solved board `[0,1,2,3]`. -/
theorem isFinalState_iff_canonical_witness :
    (State.init [0, 1, 2, 3] none 0).tiles.Perm
      (List.range (State.init [0, 1, 2, 3] none 0).tiles.length) ∧
    NPuzzleSolver.isFinalState (State.init [0, 1, 2, 3] none 0) = true :=
  ⟨by decide,
    (isFinalState_iff_canonical (State.init [0, 1, 2, 3] none 0) (by decide)).mpr
      (by decide)⟩

/-! ### Board arithmetic and the specification of `move_empty_to` -/

theorem intSqrtGo_add (n : Nat) (hn : 0 < n) :
    ∀ j, n + j ≤ n * n → intSqrtGo (n * n) (n + j) = n := by
  intro j
  induction j with
  | zero =>
    intro _
    obtain ⟨m, rfl⟩ : ∃ m, n = m + 1 := ⟨n - 1, by omega⟩
    show intSqrtGo ((m + 1) * (m + 1)) (m + 1) = m + 1
    simp [intSqrtGo]
  | succ j ih =>
    intro hle
    have hlt : ¬ ((n + j + 1) * (n + j + 1) ≤ n * n) := by nlinarith
    show (if (n + j + 1) * (n + j + 1) ≤ n * n then n + j + 1
      else intSqrtGo (n * n) (n + j)) = n
    rw [if_neg hlt]
    exact ih (by omega)

theorem intSqrt_sq (n : Nat) : intSqrt (n * n) = n := by
  rcases Nat.eq_zero_or_pos n with h0 | hpos
  · subst h0
    rfl
  · have hle : n ≤ n * n := Nat.le_mul_of_pos_left n hpos
    calc intSqrt (n * n) = intSqrtGo (n * n) (n + (n * n - n)) := by
          rw [intSqrt]
          congr 1
          omega
    _ = n := intSqrtGo_add n hpos _ (by omega)

@[simp] theorem State.init_tiles (b : List Nat) (p : Option State) (d : Nat) :
    (State.init b p d).tiles = b := rfl

@[simp] theorem State.init_dimensions (b : List Nat) (p : Option State) (d : Nat) :
    (State.init b p d).dimensions = intSqrt b.length := rfl

@[simp] theorem State.init_parent (b : List Nat) (p : Option State) (d : Nat) :
    (State.init b p d).parent = p := rfl

@[simp] theorem State.init_depth (b : List Nat) (p : Option State) (d : Nat) :
    (State.init b p d).depth = d := rfl

@[simp] theorem State.init_empty_row (b : List Nat) (p : Option State) (d : Nat) :
    (State.init b p d).empty_row = b.indexOf 0 / intSqrt b.length := rfl

@[simp] theorem State.init_empty_col (b : List Nat) (p : Option State) (d : Nat) :
    (State.init b p d).empty_col = b.indexOf 0 % intSqrt b.length := rfl

@[simp] theorem State.init_parent_move (b : List Nat) (p : Option State) (d : Nat) :
    (State.init b p d).parent_move = none := rfl

@[simp] theorem State.init_number_of_moves (b : List Nat) (p : Option State) (d : Nat) :
    (State.init b p d).number_of_moves = 0 := rfl

@[simp] theorem State.process_astar_stats_tiles (s : State) :
    s.process_astar_stats.tiles = s.tiles := by cases s <;> rfl

@[simp] theorem State.process_astar_stats_dimensions (s : State) :
    s.process_astar_stats.dimensions = s.dimensions := by cases s <;> rfl

@[simp] theorem State.process_astar_stats_parent (s : State) :
    s.process_astar_stats.parent = s.parent := by cases s <;> rfl

@[simp] theorem State.process_astar_stats_depth (s : State) :
    s.process_astar_stats.depth = s.depth := by cases s <;> rfl

@[simp] theorem State.process_astar_stats_empty_row (s : State) :
    s.process_astar_stats.empty_row = s.empty_row := by cases s <;> rfl

@[simp] theorem State.process_astar_stats_empty_col (s : State) :
    s.process_astar_stats.empty_col = s.empty_col := by cases s <;> rfl

@[simp] theorem State.process_astar_stats_parent_move (s : State) :
    s.process_astar_stats.parent_move = s.parent_move := by cases s <;> rfl

@[simp] theorem State.withMoveInfo_tiles (s : State) (label : Move) (n : Nat) :
    (s.withMoveInfo label n).tiles = s.tiles := by cases s <;> rfl

@[simp] theorem State.withMoveInfo_dimensions (s : State) (label : Move) (n : Nat) :
    (s.withMoveInfo label n).dimensions = s.dimensions := by cases s <;> rfl

@[simp] theorem State.withMoveInfo_parent (s : State) (label : Move) (n : Nat) :
    (s.withMoveInfo label n).parent = s.parent := by cases s <;> rfl

@[simp] theorem State.withMoveInfo_depth (s : State) (label : Move) (n : Nat) :
    (s.withMoveInfo label n).depth = s.depth := by cases s <;> rfl

@[simp] theorem State.withMoveInfo_empty_row (s : State) (label : Move) (n : Nat) :
    (s.withMoveInfo label n).empty_row = s.empty_row := by cases s <;> rfl

@[simp] theorem State.withMoveInfo_empty_col (s : State) (label : Move) (n : Nat) :
    (s.withMoveInfo label n).empty_col = s.empty_col := by cases s <;> rfl

@[simp] theorem State.withMoveInfo_parent_move (s : State) (label : Move) (n : Nat) :
    (s.withMoveInfo label n).parent_move = some label := by cases s <;> rfl

/-- Well-formedness of a `State`'s derived fields: `dimensions` and the
blank position agree with what `State.__init__` computes from `tiles`.
Every state the program constructs satisfies this. -/
def WF (s : State) : Prop :=
  s.dimensions = intSqrt s.tiles.length ∧
  s.empty_row = s.tiles.indexOf 0 / s.dimensions ∧
  s.empty_col = s.tiles.indexOf 0 % s.dimensions

theorem WF_init (b : List Nat) (p : Option State) (d : Nat) :
    WF (State.init b p d) := by
  refine ⟨rfl, ?_, ?_⟩ <;> simp

theorem WF_withMoveInfo (s : State) (label : Move) (n : Nat) (hwf : WF s) :
    WF (s.withMoveInfo label n) := by
  obtain ⟨h1, h2, h3⟩ := hwf
  exact ⟨by simpa using h1, by simpa using h2, by simpa using h3⟩

theorem rowcol_idx_lt (a b n : Nat) (ha : a < n) (hb : b < n) :
    a * n + b < n * n := by nlinarith

theorem idx_div (a b n : Nat) (hn : 0 < n) (hb : b < n) : (a * n + b) / n = a := by
  rw [mul_comm, Nat.mul_add_div hn]
  simp [Nat.div_eq_of_lt hb]

theorem idx_mod (a b n : Nat) (hb : b < n) : (a * n + b) % n = b := by
  rw [mul_comm, Nat.mul_add_mod]
  exact Nat.mod_eq_of_lt hb

theorem indexOf_zero_eq (l : List Nat) (i : Nat) (hi : i < l.length)
    (h1 : l.getD i 0 = 0) (h2 : ∀ j, j < i → l.getD j 0 ≠ 0) :
    l.indexOf 0 = i := by
  induction l generalizing i with
  | nil => simp at hi
  | cons a as ih =>
    cases i with
    | zero =>
      have ha : a = 0 := by simpa using h1
      simp [List.indexOf_cons, ha]
    | succ k =>
      have ha : a ≠ 0 := by
        have := h2 0 (Nat.succ_pos k)
        simpa using this
      have hk : as.indexOf 0 = k :=
        ih k (by simpa using hi) (by simpa using h1)
          (fun j hj => by simpa using h2 (j + 1) (by omega))
      simp [List.indexOf_cons, ha, hk]

theorem set_append_perm (x : Nat) :
    ∀ (l : List Nat) (i : Nat), i < l.length →
      (l.set i x ++ [l.getD i 0]).Perm (l ++ [x]) := by
  intro l
  induction l with
  | nil =>
    intro i hi
    simp at hi
  | cons a as ih =>
    intro i hi
    cases i with
    | zero =>
      show (x :: (as ++ [a])).Perm (a :: (as ++ [x]))
      have p1 : (x :: (as ++ [a])).Perm (x :: a :: as) :=
        (List.perm_append_singleton a as).cons x
      have p2 : (x :: a :: as).Perm (a :: x :: as) := List.Perm.swap a x as
      have p3 : (a :: x :: as).Perm (a :: (as ++ [x])) :=
        ((List.perm_append_singleton x as).symm).cons a
      exact p1.trans (p2.trans p3)
    | succ k =>
      have hk : k < as.length := by simpa using hi
      show (a :: (as.set k x ++ [as.getD k 0])).Perm (a :: (as ++ [x]))
      exact (ih k hk).cons a

theorem double_set_perm (b : List Nat) (idx eidx : Nat) (hidx : idx < b.length)
    (heidx : eidx < b.length) (hne : idx ≠ eidx) (h0 : b.getD eidx 0 = 0) :
    ((b.set idx 0).set eidx (b.getD idx 0)).Perm b := by
  have hA := set_append_perm 0 b idx hidx
  have hB := set_append_perm (b.getD idx 0) (b.set idx 0) eidx (by simpa using heidx)
  have hget : (b.set idx 0).getD eidx 0 = 0 := by
    rw [List.getD_eq_getElem _ 0 (by simpa using heidx),
      List.getElem_set_ne hne, ← List.getD_eq_getElem b 0 heidx]
    exact h0
  rw [hget] at hB
  have hchain := hB.trans hA
  exact (List.perm_append_right_iff [0]).mp hchain

theorem double_set_undo (b : List Nat) (idx eidx : Nat) (hidx : idx < b.length)
    (heidx : eidx < b.length) (hne : idx ≠ eidx) (h0 : b.getD eidx 0 = 0) :
    ((((b.set idx 0).set eidx (b.getD idx 0)).set eidx 0).set idx
        ((((b.set idx 0).set eidx (b.getD idx 0))).getD eidx 0)) = b := by
  have hlen1 : eidx < ((b.set idx 0).set eidx (b.getD idx 0)).length := by
    simpa using heidx
  have h1 : ((b.set idx 0).set eidx (b.getD idx 0)).getD eidx 0 = b.getD idx 0 := by
    rw [List.getD_eq_getElem _ 0 hlen1]
    exact List.getElem_set_self hlen1
  rw [h1]
  have hget : (b.set idx 0).getD eidx 0 = 0 := by
    rw [List.getD_eq_getElem _ 0 (by simpa using heidx),
      List.getElem_set_ne hne, ← List.getD_eq_getElem b 0 heidx]
    exact h0
  have h2 : ((b.set idx 0).set eidx (b.getD idx 0)).set eidx 0 = b.set idx 0 := by
    rw [List.set_set]
    have hss := set_getD_self (b.set idx 0) eidx (by simpa using heidx)
    rw [hget] at hss
    exact hss
  rw [h2, List.set_set]
  exact set_getD_self b idx hidx

/-- The central specification of `State.move_empty_to` on a well-formed
state over a valid board: the child's tiles are the original with the
blank and target swapped, the child's derived fields are consistent, and
the child is again well-formed. -/
theorem move_empty_to_spec (n : Nat) (hn : 0 < n) (s : State)
    (hwf : WF s) (hperm : s.tiles.Perm (List.range (n * n)))
    (r c : Int) (hr0 : 0 ≤ r) (hrn : r < (n : Int)) (hc0 : 0 ≤ c)
    (hcn : c < (n : Int))
    (hne : r.toNat * n + c.toNat ≠ s.tiles.indexOf 0) :
    (s.move_empty_to r c).tiles =
      (s.tiles.set (r.toNat * n + c.toNat) 0).set (s.tiles.indexOf 0)
        (s.tiles.getD (r.toNat * n + c.toNat) 0) ∧
    (s.move_empty_to r c).tiles.Perm s.tiles ∧
    (s.move_empty_to r c).tiles.indexOf 0 = r.toNat * n + c.toNat ∧
    (s.move_empty_to r c).dimensions = n ∧
    (s.move_empty_to r c).empty_row = r.toNat ∧
    (s.move_empty_to r c).empty_col = c.toNat ∧
    (s.move_empty_to r c).depth = s.depth + 1 ∧
    (s.move_empty_to r c).parent = some s ∧
    (s.move_empty_to r c).parent_move = none ∧
    WF (s.move_empty_to r c) := by
  obtain ⟨hwd, hwr, hwc⟩ := hwf
  set b := s.tiles with hb
  have hlen : b.length = n * n := by
    simpa using hperm.length_eq
  have hdim : s.dimensions = n := by
    rw [hwd, hlen, intSqrt_sq]
  have hnd : b.Nodup := hperm.nodup_iff.mpr (List.nodup_range _)
  have h0mem : (0 : Nat) ∈ b := hperm.mem_iff.mpr (List.mem_range.mpr (by positivity))
  set eidx := b.indexOf 0 with heidxdef
  have heidx : eidx < b.length := List.indexOf_lt_length.mpr h0mem
  have hbeidx : b.getD eidx 0 = 0 := by
    rw [List.getD_eq_getElem _ 0 heidx]
    exact List.getElem_indexOf heidx
  set rn := r.toNat with hrn'
  set cn := c.toNat with hcn'
  have hrnn : rn < n := by omega
  have hcnn : cn < n := by omega
  set idx := rn * n + cn with hidxdef
  have hidx : idx < b.length := by
    rw [hlen]
    exact rowcol_idx_lt rn cn n hrnn hcnn
  -- the Int index computed by `move_empty_to` is `idx`
  have hidxInt : (r * (s.dimensions : Int) + c).toNat = idx := by
    rw [hdim, ← Int.toNat_of_nonneg hr0, ← Int.toNat_of_nonneg hc0]
    have hcast : ((r.toNat : Int) * (n : Int) + (c.toNat : Int)) =
        ((r.toNat * n + c.toNat : Nat) : Int) := by
      push_cast
      ring
    rw [hcast, Int.toNat_natCast]
  -- the blank slot written by `move_empty_to` is `eidx`
  have heidxNat : s.empty_row * s.dimensions + s.empty_col = eidx := by
    rw [hwr, hwc, hdim, mul_comm]
    exact Nat.div_add_mod eidx n
  have htiles : (s.move_empty_to r c).tiles =
      (b.set idx 0).set eidx (b.getD idx 0) := by
    rw [State.move_empty_to]
    simp only [State.process_astar_stats_tiles, State.init_tiles]
    rw [hidxInt, heidxNat, ← hb]
  -- uniqueness of the blank
  have huniq : ∀ j, j < b.length → j ≠ eidx → b.getD j 0 ≠ 0 := by
    intro j hj hjne hzero
    apply hjne
    rw [List.getD_eq_getElem _ 0 hj] at hzero
    have h2 : b[eidx] = 0 := List.getElem_indexOf heidx
    exact (List.Nodup.getElem_inj_iff hnd).mp (hzero.trans h2.symm)
  have hbidx : b.getD idx 0 ≠ 0 := huniq idx hidx hne
  -- entries of the new list
  have hnew_len : ((b.set idx 0).set eidx (b.getD idx 0)).length = b.length := by
    simp
  have hnew_at_idx : ((b.set idx 0).set eidx (b.getD idx 0)).getD idx 0 = 0 := by
    rw [List.getD_eq_getElem _ 0 (by simpa [hnew_len] using hidx),
      List.getElem_set_ne (Ne.symm hne)]
    exact List.getElem_set_self (by simpa using hidx)
  have hnew_before : ∀ j, j < idx →
      ((b.set idx 0).set eidx (b.getD idx 0)).getD j 0 ≠ 0 := by
    intro j hj
    have hjlen : j < b.length := lt_trans hj hidx
    by_cases hje : j = eidx
    · subst hje
      rw [List.getD_eq_getElem _ 0 (by simpa [hnew_len] using hjlen),
        List.getElem_set_self (by simpa using hjlen)]
      exact hbidx
    · rw [List.getD_eq_getElem _ 0 (by simpa [hnew_len] using hjlen),
        List.getElem_set_ne (Ne.symm hje),
        List.getElem_set_ne (by omega),
        ← List.getD_eq_getElem b 0 hjlen]
      exact huniq j hjlen hje
  have hnew_idxOf : ((b.set idx 0).set eidx (b.getD idx 0)).indexOf 0 = idx :=
    indexOf_zero_eq _ idx (by simpa [hnew_len] using hidx) hnew_at_idx hnew_before
  have hperm' : ((b.set idx 0).set eidx (b.getD idx 0)).Perm b :=
    double_set_perm b idx eidx hidx heidx (by omega) hbeidx
  have hdims' : (s.move_empty_to r c).dimensions = n := by
    rw [State.move_empty_to]
    simp only [State.process_astar_stats_dimensions, State.init_dimensions]
    rw [hidxInt, heidxNat, ← hb]
    rw [show ((b.set idx 0).set eidx (b.getD idx 0)).length = n * n by
      simpa [hnew_len] using hlen]
    exact intSqrt_sq n
  have hidxof' : (s.move_empty_to r c).tiles.indexOf 0 = idx := by
    rw [htiles]
    exact hnew_idxOf
  refine ⟨htiles, ?_, hidxof', hdims', ?_, ?_, ?_, ?_, ?_, ?_⟩
  · rw [htiles]
    exact hperm'
  · -- empty_row
    rw [State.move_empty_to]
    simp only [State.process_astar_stats_empty_row, State.init_empty_row]
    rw [hidxInt, heidxNat, ← hb]
    have hl : ((b.set idx 0).set eidx (b.getD idx 0)).length = n * n := by
      simpa [hnew_len] using hlen
    rw [hnew_idxOf, hl, intSqrt_sq]
    exact idx_div rn cn n hn hcnn
  · -- empty_col
    rw [State.move_empty_to]
    simp only [State.process_astar_stats_empty_col, State.init_empty_col]
    rw [hidxInt, heidxNat, ← hb]
    have hl : ((b.set idx 0).set eidx (b.getD idx 0)).length = n * n := by
      simpa [hnew_len] using hlen
    rw [hnew_idxOf, hl, intSqrt_sq]
    exact idx_mod rn cn n hcnn
  · rw [State.move_empty_to]
    simp
  · rw [State.move_empty_to]
    simp
  · rw [State.move_empty_to]
    simp
  · -- well-formedness of the child
    refine ⟨?_, ?_, ?_⟩
    · rw [hdims', htiles, hnew_len, hlen, intSqrt_sq]
    · rw [hdims', hidxof']
      rw [State.move_empty_to]
      simp only [State.process_astar_stats_empty_row, State.init_empty_row]
      rw [hidxInt, heidxNat, ← hb, hnew_idxOf]
      congr 1
      rw [show ((b.set idx 0).set eidx (b.getD idx 0)).length = n * n by
        simpa [hnew_len] using hlen]
      exact intSqrt_sq n
    · rw [hdims', hidxof']
      rw [State.move_empty_to]
      simp only [State.process_astar_stats_empty_col, State.init_empty_col]
      rw [hidxInt, heidxNat, ← hb, hnew_idxOf]
      congr 1
      rw [show ((b.set idx 0).set eidx (b.getD idx 0)).length = n * n by
        simpa [hnew_len] using hlen]
      exact intSqrt_sq n

theorem mem_optChild (o : Option State) (label : Move) (s t : State) :
    t ∈ optChild o label s ↔
      ∃ u, o = some u ∧ t = u.withMoveInfo label (s.number_of_moves + 1) := by
  cases o <;> simp [optChild]

theorem mem_generate (s t : State) :
    t ∈ s.generate_possible_states ↔
      (∃ u, s.move_up = some u ∧
        t = u.withMoveInfo .Up (s.number_of_moves + 1)) ∨
      (∃ u, s.move_down = some u ∧
        t = u.withMoveInfo .Down (s.number_of_moves + 1)) ∨
      (∃ u, s.move_left = some u ∧
        t = u.withMoveInfo .Left (s.number_of_moves + 1)) ∨
      (∃ u, s.move_right = some u ∧
        t = u.withMoveInfo .Right (s.number_of_moves + 1)) := by
  rw [generate_eq]
  simp only [List.mem_append, mem_optChild, or_assoc]

theorem is_valid_iff (s : State) (row col : Int) :
    s.is_valid row col = true ↔
      (0 ≤ row ∧ row < (s.dimensions : Int) ∧ 0 ≤ col ∧
        col < (s.dimensions : Int)) := by
  rw [State.is_valid]
  split <;> simp_all

theorem moveOf_eq_some (s u : State) (mv : Move) :
    s.moveOf mv = some u ↔
      (0 ≤ targetRow s mv ∧ targetRow s mv < (s.dimensions : Int) ∧
        0 ≤ targetCol s mv ∧ targetCol s mv < (s.dimensions : Int)) ∧
      u = s.move_empty_to (targetRow s mv) (targetCol s mv) := by
  cases mv
  all_goals (
    simp only [State.moveOf, State.move_up, State.move_down, State.move_left,
      State.move_right, targetRow, targetCol]
    split
    case isTrue hvalid =>
      constructor
      · intro h
        exact ⟨(is_valid_iff _ _ _).mp hvalid, (Option.some_inj.mp h).symm⟩
      · rintro ⟨_, rfl⟩
        rfl
    case isFalse hvalid =>
      constructor
      · intro h
        cases h
      · rintro ⟨hbounds, rfl⟩
        exact absurd ((is_valid_iff _ _ _).mpr hbounds) hvalid)

/-! ### C4: successors are adjacent swaps, and moves are reversible -/

/-- Exchange the entries of `l` at positions `i` and `j`. -/
def swapAt (l : List Nat) (i j : Nat) : List Nat :=
  (l.set i (l.getD j 0)).set j (l.getD i 0)

/-- Cells `i` and `j` of an `n × n` board (in row-major order) are
orthogonally adjacent. -/
def adjacentIdx (n i j : Nat) : Prop :=
  (i / n = j / n ∧ (i % n = j % n + 1 ∨ j % n = i % n + 1)) ∨
  (i % n = j % n ∧ (i / n = j / n + 1 ∨ j / n = i / n + 1))

/-- The move undoing a child's `parent_move`: Up↔Down, Left↔Right. -/
def inverseMove (t : State) : Option State :=
  match t.parent_move with
  | some .Up => t.move_down
  | some .Down => t.move_up
  | some .Left => t.move_right
  | some .Right => t.move_left
  | none => none

/-- Workhorse for C4: a tagged child at valid target `(r, c)` carries the
swapped board, its blank bookkeeping is exact, and sliding the blank
back to the original blank cell restores the original board. -/
theorem child_and_inverse (n : Nat) (hn : 0 < n) (s : State) (hwf : WF s)
    (hperm : s.tiles.Perm (List.range (n * n)))
    (r c : Int) (hr0 : 0 ≤ r) (hrn : r < (n : Int)) (hc0 : 0 ≤ c)
    (hcn : c < (n : Int))
    (hne : r.toNat * n + c.toNat ≠ s.tiles.indexOf 0)
    (label : Move) (m : Nat) :
    ((s.move_empty_to r c).withMoveInfo label m).tiles =
      swapAt s.tiles (r.toNat * n + c.toNat) (s.tiles.indexOf 0) ∧
    ((s.move_empty_to r c).withMoveInfo label m).empty_row = r.toNat ∧
    ((s.move_empty_to r c).withMoveInfo label m).empty_col = c.toNat ∧
    ((s.move_empty_to r c).withMoveInfo label m).dimensions = n ∧
    (∀ r2 c2 : Int, r2 = ((s.tiles.indexOf 0 / n : Nat) : Int) →
      c2 = ((s.tiles.indexOf 0 % n : Nat) : Int) →
      ((((s.move_empty_to r c).withMoveInfo label m).move_empty_to r2 c2)).tiles =
        s.tiles) := by
  obtain ⟨htiles, hpermc, hidxof, hdims, her, hec, _, _, _, hwfc⟩ :=
    move_empty_to_spec n hn s hwf hperm r c hr0 hrn hc0 hcn hne
  set b := s.tiles with hb
  set eidx := b.indexOf 0 with heidxdef
  set idx := r.toNat * n + c.toNat with hidxdef
  have hlen : b.length = n * n := by simpa using hperm.length_eq
  have h0mem : (0 : Nat) ∈ b :=
    hperm.mem_iff.mpr (List.mem_range.mpr (by positivity))
  have heidx : eidx < b.length := List.indexOf_lt_length.mpr h0mem
  have hbeidx : b.getD eidx 0 = 0 := by
    rw [List.getD_eq_getElem _ 0 heidx]
    exact List.getElem_indexOf heidx
  have hidx : idx < b.length := by
    rw [hlen]
    exact rowcol_idx_lt _ _ n (by omega) (by omega)
  have hswap : ((s.move_empty_to r c).withMoveInfo label m).tiles =
      swapAt b idx eidx := by
    rw [State.withMoveInfo_tiles, htiles, swapAt, hbeidx]
  refine ⟨hswap, by simpa using her, by simpa using hec, by simpa using hdims, ?_⟩
  intro r2 c2 hr2 hc2
  subst hr2 hc2
  -- apply the specification once more, from the child back to the blank
  set w := (s.move_empty_to r c).withMoveInfo label m with hw
  have hwwf : WF w := WF_withMoveInfo _ label m hwfc
  have hwperm : w.tiles.Perm (List.range (n * n)) := by
    rw [State.withMoveInfo_tiles]
    exact hpermc.trans hperm
  have hwidxof : w.tiles.indexOf 0 = idx := by
    rw [State.withMoveInfo_tiles]
    exact hidxof
  have her2 : eidx / n < n := by
    rw [Nat.div_lt_iff_lt_mul hn]
    omega
  have hec2 : eidx % n < n := Nat.mod_lt _ hn
  have heidxsum : (eidx / n) * n + eidx % n = eidx := by
    rw [mul_comm]
    exact Nat.div_add_mod eidx n
  have hne2 : ((eidx / n : Nat) : Int).toNat * n +
      ((eidx % n : Nat) : Int).toNat ≠ w.tiles.indexOf 0 := by
    rw [Int.toNat_natCast, Int.toNat_natCast, hwidxof, heidxsum]
    omega
  obtain ⟨htiles2, _, _, _, _, _, _, _, _, _⟩ :=
    move_empty_to_spec n hn w hwwf hwperm
      ((eidx / n : Nat) : Int) ((eidx % n : Nat) : Int)
      (by positivity) (by exact_mod_cast her2) (by positivity)
      (by exact_mod_cast hec2) hne2
  rw [htiles2, Int.toNat_natCast, Int.toNat_natCast, heidxsum, hwidxof]
  have hwtiles : w.tiles = (b.set idx 0).set eidx (b.getD idx 0) := by
    rw [hw, State.withMoveInfo_tiles, htiles]
  rw [hwtiles]
  exact double_set_undo b idx eidx hidx heidx (by omega) hbeidx

/-- C4.  On a well-formed state over a valid board, every generated
successor differs from the board by exactly one swap of the blank with
an orthogonally adjacent tile, and applying the inverse move
(Up↔Down, Left↔Right) to the successor restores the original board. -/
theorem successor_adjacent_swap_inverse (n : Nat) (hn : 0 < n) (s : State)
    (hwf : WF s) (hperm : s.tiles.Perm (List.range (n * n))) :
    ∀ t ∈ s.generate_possible_states,
      (∃ j, j < n * n ∧ j ≠ s.tiles.indexOf 0 ∧
        t.tiles = swapAt s.tiles j (s.tiles.indexOf 0) ∧
        adjacentIdx n (s.tiles.indexOf 0) j) ∧
      (∃ t2, inverseMove t = some t2 ∧ t2.tiles = s.tiles) := by
  intro t ht
  have hlen : s.tiles.length = n * n := by simpa using hperm.length_eq
  have hdim : s.dimensions = n := by rw [hwf.1, hlen, intSqrt_sq]
  have her : s.empty_row = s.tiles.indexOf 0 / n := by rw [hwf.2.1, hdim]
  have hec : s.empty_col = s.tiles.indexOf 0 % n := by rw [hwf.2.2, hdim]
  set b := s.tiles with hb
  set eidx := b.indexOf 0 with heidxdef
  have h0mem : (0 : Nat) ∈ b :=
    hperm.mem_iff.mpr (List.mem_range.mpr (by positivity))
  have heidx : eidx < b.length := List.indexOf_lt_length.mpr h0mem
  have herlt : eidx / n < n := by
    rw [Nat.div_lt_iff_lt_mul hn]
    omega
  have heclt : eidx % n < n := Nat.mod_lt _ hn
  have heidxsum : (eidx / n) * n + eidx % n = eidx := by
    rw [mul_comm]
    exact Nat.div_add_mod eidx n
  rcases (mem_generate s t).mp ht with ⟨u, hmu, rfl⟩ | ⟨u, hmu, rfl⟩ |
    ⟨u, hmu, rfl⟩ | ⟨u, hmu, rfl⟩
  · -- Up: target (eidx / n - 1, eidx % n)
    obtain ⟨⟨hb1, hb2, hb3, hb4⟩, hu⟩ := (moveOf_eq_some s u .Up).mp hmu
    simp only [targetRow, targetCol, her, hec, hdim] at hb1 hb2 hb3 hb4 hu
    have hge1 : 1 ≤ eidx / n := by omega
    obtain ⟨e', he'⟩ : ∃ e', eidx / n = e' + 1 := ⟨eidx / n - 1, by omega⟩
    have hmul : (e' + 1) * n = e' * n + n := by ring
    have hsum' : (e' + 1) * n + eidx % n = eidx := by
      rw [← he']
      exact heidxsum
    have hrt' : (((eidx / n : Nat) : Int) - 1).toNat = e' := by omega
    have hct : ((eidx % n : Nat) : Int).toNat = eidx % n := Int.toNat_natCast _
    have hne : (((eidx / n : Nat) : Int) - 1).toNat * n +
        ((eidx % n : Nat) : Int).toNat ≠ eidx := by
      rw [hrt', hct]
      omega
    have hcore := child_and_inverse n hn s hwf hperm
      (((eidx / n : Nat) : Int) - 1) ((eidx % n : Nat) : Int)
      hb1 hb2 hb3 hb4 hne .Up (s.number_of_moves + 1)
    rw [← hu] at hcore
    obtain ⟨hswap, hwer, hwec, hwdim, hinv⟩ := hcore
    constructor
    · refine ⟨e' * n + eidx % n, ?_, ?_, ?_, ?_⟩
      · exact rowcol_idx_lt _ _ n (by omega) heclt
      · omega
      · rw [hswap, hrt', hct]
      · right
        refine ⟨(idx_mod e' _ n heclt).symm, Or.inl ?_⟩
        rw [idx_div e' _ n hn heclt]
        exact he'
    · have hpm : (u.withMoveInfo .Up (s.number_of_moves + 1)).parent_move =
          some .Up := State.withMoveInfo_parent_move u .Up _
      have hiv : inverseMove (u.withMoveInfo .Up (s.number_of_moves + 1)) =
          (u.withMoveInfo .Up (s.number_of_moves + 1)).move_down := by
        rw [inverseMove, hpm]
      set w := u.withMoveInfo .Up (s.number_of_moves + 1) with hwdef
      have hmd : w.moveOf .Down =
          some (w.move_empty_to ((w.empty_row : Int) + 1) (w.empty_col : Int)) := by
        apply (moveOf_eq_some w _ .Down).mpr
        refine ⟨?_, rfl⟩
        simp only [targetRow, targetCol]
        rw [hwer, hwec, hwdim, hrt', hct]
        refine ⟨by positivity, ?_, by positivity, ?_⟩
        · omega
        · push_cast
          omega
      refine ⟨w.move_empty_to ((w.empty_row : Int) + 1) (w.empty_col : Int),
        ?_, ?_⟩
      · rw [hiv]
        exact hmd
      · apply hinv
        · rw [hwer, hrt', ← hb, ← heidxdef, he']
          omega
        · rw [hwec, hct]
  · -- Down: target (eidx / n + 1, eidx % n)
    obtain ⟨⟨hb1, hb2, hb3, hb4⟩, hu⟩ := (moveOf_eq_some s u .Down).mp hmu
    simp only [targetRow, targetCol, her, hec, hdim] at hb1 hb2 hb3 hb4 hu
    have hlt : eidx / n + 1 < n := by omega
    have hrt' : (((eidx / n : Nat) : Int) + 1).toNat = eidx / n + 1 := by omega
    have hct : ((eidx % n : Nat) : Int).toNat = eidx % n := Int.toNat_natCast _
    have hmul : (eidx / n + 1) * n = (eidx / n) * n + n := by ring
    have hne : (((eidx / n : Nat) : Int) + 1).toNat * n +
        ((eidx % n : Nat) : Int).toNat ≠ eidx := by
      rw [hrt', hct]
      omega
    have hcore := child_and_inverse n hn s hwf hperm
      (((eidx / n : Nat) : Int) + 1) ((eidx % n : Nat) : Int)
      hb1 hb2 hb3 hb4 hne .Down (s.number_of_moves + 1)
    rw [← hu] at hcore
    obtain ⟨hswap, hwer, hwec, hwdim, hinv⟩ := hcore
    constructor
    · refine ⟨(eidx / n + 1) * n + eidx % n, ?_, ?_, ?_, ?_⟩
      · exact rowcol_idx_lt _ _ n hlt heclt
      · omega
      · rw [hswap, hrt', hct]
      · right
        refine ⟨(idx_mod _ _ n heclt).symm, Or.inr ?_⟩
        rw [idx_div _ _ n hn heclt]
    · have hpm : (u.withMoveInfo .Down (s.number_of_moves + 1)).parent_move =
          some .Down := State.withMoveInfo_parent_move u .Down _
      have hiv : inverseMove (u.withMoveInfo .Down (s.number_of_moves + 1)) =
          (u.withMoveInfo .Down (s.number_of_moves + 1)).move_up := by
        rw [inverseMove, hpm]
      set w := u.withMoveInfo .Down (s.number_of_moves + 1) with hwdef
      have hmd : w.moveOf .Up =
          some (w.move_empty_to ((w.empty_row : Int) - 1) (w.empty_col : Int)) := by
        apply (moveOf_eq_some w _ .Up).mpr
        refine ⟨?_, rfl⟩
        simp only [targetRow, targetCol]
        rw [hwer, hwec, hwdim, hrt', hct]
        refine ⟨?_, ?_, by positivity, ?_⟩
        · push_cast
          omega
        · push_cast
          omega
        · push_cast
          omega
      refine ⟨w.move_empty_to ((w.empty_row : Int) - 1) (w.empty_col : Int),
        ?_, ?_⟩
      · rw [hiv]
        exact hmd
      · apply hinv
        · rw [hwer, hrt', ← hb, ← heidxdef]
          omega
        · rw [hwec, hct]
  · -- Left: target (eidx / n, eidx % n - 1)
    obtain ⟨⟨hb1, hb2, hb3, hb4⟩, hu⟩ := (moveOf_eq_some s u .Left).mp hmu
    simp only [targetRow, targetCol, her, hec, hdim] at hb1 hb2 hb3 hb4 hu
    have hge1 : 1 ≤ eidx % n := by omega
    have hrt : ((eidx / n : Nat) : Int).toNat = eidx / n := Int.toNat_natCast _
    have hct' : (((eidx % n : Nat) : Int) - 1).toNat = eidx % n - 1 := by omega
    have hne : ((eidx / n : Nat) : Int).toNat * n +
        (((eidx % n : Nat) : Int) - 1).toNat ≠ eidx := by
      rw [hrt, hct']
      omega
    have hcore := child_and_inverse n hn s hwf hperm
      ((eidx / n : Nat) : Int) (((eidx % n : Nat) : Int) - 1)
      hb1 hb2 hb3 hb4 hne .Left (s.number_of_moves + 1)
    rw [← hu] at hcore
    obtain ⟨hswap, hwer, hwec, hwdim, hinv⟩ := hcore
    constructor
    · refine ⟨(eidx / n) * n + (eidx % n - 1), ?_, ?_, ?_, ?_⟩
      · exact rowcol_idx_lt _ _ n herlt (by omega)
      · omega
      · rw [hswap, hrt, hct']
      · left
        refine ⟨(idx_div _ _ n hn (by omega)).symm, Or.inl ?_⟩
        rw [idx_mod _ _ n (by omega)]
        omega
    · have hpm : (u.withMoveInfo .Left (s.number_of_moves + 1)).parent_move =
          some .Left := State.withMoveInfo_parent_move u .Left _
      have hiv : inverseMove (u.withMoveInfo .Left (s.number_of_moves + 1)) =
          (u.withMoveInfo .Left (s.number_of_moves + 1)).move_right := by
        rw [inverseMove, hpm]
      set w := u.withMoveInfo .Left (s.number_of_moves + 1) with hwdef
      have hmd : w.moveOf .Right =
          some (w.move_empty_to (w.empty_row : Int) ((w.empty_col : Int) + 1)) := by
        apply (moveOf_eq_some w _ .Right).mpr
        refine ⟨?_, rfl⟩
        simp only [targetRow, targetCol]
        rw [hwer, hwec, hwdim, hrt, hct']
        refine ⟨by positivity, ?_, by positivity, ?_⟩
        · push_cast
          omega
        · omega
      refine ⟨w.move_empty_to (w.empty_row : Int) ((w.empty_col : Int) + 1),
        ?_, ?_⟩
      · rw [hiv]
        exact hmd
      · apply hinv
        · rw [hwer, hrt]
        · rw [hwec, hct', ← hb, ← heidxdef]
          omega
  · -- Right: target (eidx / n, eidx % n + 1)
    obtain ⟨⟨hb1, hb2, hb3, hb4⟩, hu⟩ := (moveOf_eq_some s u .Right).mp hmu
    simp only [targetRow, targetCol, her, hec, hdim] at hb1 hb2 hb3 hb4 hu
    have hlt : eidx % n + 1 < n := by omega
    have hrt : ((eidx / n : Nat) : Int).toNat = eidx / n := Int.toNat_natCast _
    have hct' : (((eidx % n : Nat) : Int) + 1).toNat = eidx % n + 1 := by omega
    have hne : ((eidx / n : Nat) : Int).toNat * n +
        (((eidx % n : Nat) : Int) + 1).toNat ≠ eidx := by
      rw [hrt, hct']
      omega
    have hcore := child_and_inverse n hn s hwf hperm
      ((eidx / n : Nat) : Int) (((eidx % n : Nat) : Int) + 1)
      hb1 hb2 hb3 hb4 hne .Right (s.number_of_moves + 1)
    rw [← hu] at hcore
    obtain ⟨hswap, hwer, hwec, hwdim, hinv⟩ := hcore
    constructor
    · refine ⟨(eidx / n) * n + (eidx % n + 1), ?_, ?_, ?_, ?_⟩
      · exact rowcol_idx_lt _ _ n herlt hlt
      · omega
      · rw [hswap, hrt, hct']
      · left
        refine ⟨(idx_div _ _ n hn hlt).symm, Or.inr ?_⟩
        rw [idx_mod _ _ n hlt]
    · have hpm : (u.withMoveInfo .Right (s.number_of_moves + 1)).parent_move =
          some .Right := State.withMoveInfo_parent_move u .Right _
      have hiv : inverseMove (u.withMoveInfo .Right (s.number_of_moves + 1)) =
          (u.withMoveInfo .Right (s.number_of_moves + 1)).move_left := by
        rw [inverseMove, hpm]
      set w := u.withMoveInfo .Right (s.number_of_moves + 1) with hwdef
      have hmd : w.moveOf .Left =
          some (w.move_empty_to (w.empty_row : Int) ((w.empty_col : Int) - 1)) := by
        apply (moveOf_eq_some w _ .Left).mpr
        refine ⟨?_, rfl⟩
        simp only [targetRow, targetCol]
        rw [hwer, hwec, hwdim, hrt, hct']
        refine ⟨by positivity, ?_, ?_, ?_⟩
        · push_cast
          omega
        · push_cast
          omega
        · push_cast
          omega
      refine ⟨w.move_empty_to (w.empty_row : Int) ((w.empty_col : Int) - 1),
        ?_, ?_⟩
      · rw [hiv]
        exact hmd
      · apply hinv
        · rw [hwer, hrt]
        · rw [hwec, hct', ← hb, ← heidxdef]
          omega

/-- Witness for C4 on the concrete board `[1,0,2,3]` and its first
generated successor. -/
theorem successor_adjacent_swap_inverse_witness :
    (0 < 2 ∧ WF (State.init [1, 0, 2, 3] none 0) ∧
      (State.init [1, 0, 2, 3] none 0).tiles.Perm (List.range (2 * 2)) ∧
      ((State.init [1, 0, 2, 3] none 0).generate_possible_states.getD 0
          dfltState) ∈
        (State.init [1, 0, 2, 3] none 0).generate_possible_states) ∧
    ((∃ j, j < 2 * 2 ∧ j ≠ (State.init [1, 0, 2, 3] none 0).tiles.indexOf 0 ∧
        ((State.init [1, 0, 2, 3] none 0).generate_possible_states.getD 0
            dfltState).tiles =
          swapAt (State.init [1, 0, 2, 3] none 0).tiles j
            ((State.init [1, 0, 2, 3] none 0).tiles.indexOf 0) ∧
        adjacentIdx 2 ((State.init [1, 0, 2, 3] none 0).tiles.indexOf 0) j) ∧
      (∃ t2, inverseMove
            ((State.init [1, 0, 2, 3] none 0).generate_possible_states.getD 0
              dfltState) = some t2 ∧
          t2.tiles = (State.init [1, 0, 2, 3] none 0).tiles)) := by
  have hm : ((State.init [1, 0, 2, 3] none 0).generate_possible_states.getD 0
        dfltState) ∈
      (State.init [1, 0, 2, 3] none 0).generate_possible_states := by
    rw [List.getD_eq_getElem _ _ (by decide :
      0 < (State.init [1, 0, 2, 3] none 0).generate_possible_states.length)]
    exact List.getElem_mem _
  exact ⟨⟨by decide, WF_init _ _ _, by decide, hm⟩,
    successor_adjacent_swap_inverse 2 (by decide) _ (WF_init _ _ _) (by decide)
      _ hm⟩

/-! ### C7: class-level mutable sets persist across solver instances -/

/-- C7 is refuted by the code: `frontier_set` and `explored` are
class-level attributes of `NPuzzleSolver` that are mutated but never
rebound, so they survive a `solve` call and leak into the next instance.
Concretely: solve the board `[1,0,2,3]` with BFS (it returns after two
iterations), then construct a second solver for `[3,1,2,0]`.  The second
solver starts with `explored = [[1,0,2,3],[1,3,2,0]]` — not empty — and
with `frontier_set = [[1,3,0,2],[3,1,2,0]]` — not `{initial_board}` —
contradicting the claim's fresh-start requirement.  The spec itself
(§9) identifies the sharing as a latent bug, so this is a code bug. -/
theorem class_level_sets_persist :
    ((runSolve 10 (NPuzzleSolver.init ⟨[], []⟩ .bfs
        (State.init [1, 0, 2, 3] none 0), 0)).map
      (fun p => ((NPuzzleSolver.init (classStateOf p.2) .bfs
          (State.init [3, 1, 2, 0] none 0)).explored,
        (NPuzzleSolver.init (classStateOf p.2) .bfs
          (State.init [3, 1, 2, 0] none 0)).frontier_set))) =
      some ([[1, 0, 2, 3], [1, 3, 2, 0]], [[1, 3, 0, 2], [3, 1, 2, 0]]) ∧
    ([[1, 0, 2, 3], [1, 3, 2, 0]] : List (List Nat)) ≠ [] ∧
    ([[1, 3, 0, 2], [3, 1, 2, 0]] : List (List Nat)) ≠ [[3, 1, 2, 0]] :=
  ⟨rfl, by decide, by decide⟩

/-! ### C6 counterexample: driver3's BfsSolver -/

/-- C6 counterexample.  `driver3.BfsSolver.solve` checks duplicates only
against the explored set, never against the frontier, so the same board
can be enqueued twice; when the first copy is expanded and added to the
explored set, the second copy still sits in the frontier.  Concretely,
on the (unsolvable) 2×2 board `[0,1,3,2]`, after the 12th expansion
step the board `[2,3,1,0]` is in the explored set *and* in the frontier,
so the two collections are not disjoint after each expansion step. -/
theorem driver3_explored_frontier_overlap :
    ((Driver3.runSteps 12 (Driver3.mkSolver (State.init [0, 1, 3, 2] none 0))).map
      (fun st => (decide ([2, 3, 1, 0] ∈ st.explored),
        decide ([2, 3, 1, 0] ∈ st.frontier.map State.tiles)))) =
      some (true, true) := rfl

/-! ### Board-level move semantics -/

/-- The board reached by sliding the blank in direction `mv`, derived
from the embedded move functions on a state freshly built from the
board (`none` if the move is invalid). -/
def applyMove (mv : Move) (b : List Nat) : Option (List Nat) :=
  ((State.init b none 0).moveOf mv).map State.tiles

/-- Replay a move sequence from a board. -/
def replay (ms : List Move) (b : List Nat) : Option (List Nat) :=
  ms.foldl (fun ob mv => ob.bind (applyMove mv)) (some b)

/-- `b2` is reachable from `a` by exactly `k` blank moves. -/
def ReachN (k : Nat) (a b2 : List Nat) : Prop :=
  ∃ ms : List Move, ms.length = k ∧ replay ms a = some b2

/-- One blank move relates the two boards. -/
def Step (a b2 : List Nat) : Prop := ∃ mv, applyMove mv a = some b2

/-- `d` is the length of a shortest move sequence from `a` to `b2`. -/
def IsDist (a b2 : List Nat) (d : Nat) : Prop :=
  ReachN d a b2 ∧ ∀ k, ReachN k a b2 → d ≤ k

theorem moveOf_map_tiles_congr (s₁ s₂ : State) (ht : s₁.tiles = s₂.tiles)
    (hd : s₁.dimensions = s₂.dimensions) (hr : s₁.empty_row = s₂.empty_row)
    (hc : s₁.empty_col = s₂.empty_col) (mv : Move) :
    (s₁.moveOf mv).map State.tiles = (s₂.moveOf mv).map State.tiles := by
  cases mv <;>
    simp only [State.moveOf, State.move_up, State.move_down, State.move_left,
      State.move_right, State.is_valid, State.move_empty_to, ht, hd, hr, hc] <;>
    split <;>
    simp

theorem applyMove_eq (s : State) (hwf : WF s) (mv : Move) :
    applyMove mv s.tiles = (s.moveOf mv).map State.tiles := by
  obtain ⟨h1, h2, h3⟩ := hwf
  apply moveOf_map_tiles_congr
  · rfl
  · simp [h1]
  · simp [h2, h1]
  · simp [h3, h1]

theorem replay_append (ms : List Move) (mv : Move) (b : List Nat) :
    replay (ms ++ [mv]) b = (replay ms b).bind (applyMove mv) := by
  rw [replay, List.foldl_append]
  rfl

theorem foldl_bind_none (ms : List Move) :
    ms.foldl (fun ob mv => ob.bind (applyMove mv)) none = none := by
  induction ms with
  | nil => rfl
  | cons m ms ih => simpa using ih

theorem replay_cons (mv : Move) (ms : List Move) (b : List Nat) :
    replay (mv :: ms) b = (applyMove mv b).bind (replay ms) := by
  cases h : applyMove mv b with
  | none =>
    show List.foldl _ ((some b).bind (applyMove mv)) ms = _
    rw [Option.some_bind, h, Option.none_bind]
    exact foldl_bind_none ms
  | some c =>
    show List.foldl _ ((some b).bind (applyMove mv)) ms = _
    rw [Option.some_bind, h, Option.some_bind]
    rfl

theorem reachN_zero (a b2 : List Nat) : ReachN 0 a b2 ↔ a = b2 := by
  constructor
  · rintro ⟨ms, hlen, hrep⟩
    rw [List.length_eq_zero] at hlen
    subst hlen
    simpa [replay] using hrep
  · rintro rfl
    exact ⟨[], rfl, rfl⟩

theorem reachN_succ_back (k : Nat) (a b2 : List Nat) :
    ReachN (k + 1) a b2 ↔ ∃ c, ReachN k a c ∧ Step c b2 := by
  constructor
  · rintro ⟨ms, hlen, hrep⟩
    have hne : ms ≠ [] := by
      intro h
      subst h
      simp at hlen
    obtain ⟨ms', mv, rfl⟩ : ∃ ms' mv, ms = ms' ++ [mv] := by
      refine ⟨ms.dropLast, ms.getLast hne, ?_⟩
      exact (List.dropLast_append_getLast hne).symm
    rw [replay_append] at hrep
    cases hc : replay ms' a with
    | none =>
      rw [hc] at hrep
      simp at hrep
    | some c =>
      rw [hc] at hrep
      refine ⟨c, ⟨ms', ?_, hc⟩, mv, by simpa using hrep⟩
      have := hlen
      simp at this
      omega
  · rintro ⟨c, ⟨ms, hlen, hrep⟩, mv, happ⟩
    refine ⟨ms ++ [mv], by simp [hlen], ?_⟩
    rw [replay_append, hrep]
    simpa using happ

theorem reachN_succ_front (k : Nat) (a b2 : List Nat) :
    ReachN (k + 1) a b2 ↔ ∃ c, Step a c ∧ ReachN k c b2 := by
  constructor
  · rintro ⟨ms, hlen, hrep⟩
    cases ms with
    | nil => simp at hlen
    | cons mv ms' =>
      rw [replay_cons] at hrep
      cases hc : applyMove mv a with
      | none =>
        rw [hc] at hrep
        simp at hrep
      | some c =>
        rw [hc] at hrep
        refine ⟨c, ⟨mv, hc⟩, ms', by simpa using hlen, by simpa using hrep⟩
  · rintro ⟨c, ⟨mv, happ⟩, ms, hlen, hrep⟩
    refine ⟨mv :: ms, by simp [hlen], ?_⟩
    rw [replay_cons, happ]
    simpa using hrep

/-- Well-formedness of the parent chain of a search node rooted at the
initial board: depths count up from 0, every link records the move that
produced the child's board from the parent's. -/
inductive NodeOK (root : List Nat) : State → Prop where
  | root : ∀ s, s.parent = none → s.parent_move = none → s.depth = 0 →
      s.tiles = root → NodeOK root s
  | child : ∀ s p mv, s.parent = some p → s.parent_move = some mv →
      s.depth = p.depth + 1 → applyMove mv p.tiles = some s.tiles →
      NodeOK root p → NodeOK root s

theorem get_solution_moves_eq (s : State) :
    get_solution_moves s =
      (match s.parent with
        | none => []
        | some q => get_solution_moves q) ++ s.parent_move.toList := by
  cases s with
  | mk t d p dep er ec nm pm f g h => cases p <;> rfl

/-- The reconstructed move list of a well-formed node replays from the
root to the node's board, and its length is the node's depth. -/
theorem NodeOK.sol (root : List Nat) (s : State) (hok : NodeOK root s) :
    replay (get_solution_moves s) root = some s.tiles ∧
      (get_solution_moves s).length = s.depth := by
  induction hok with
  | root s hp hm hd ht =>
    rw [get_solution_moves_eq, hp, hm]
    simp [replay, ht, hd]
  | child s p mv hp hm hd happ _ ih =>
    rw [get_solution_moves_eq, hp, hm]
    constructor
    · rw [show (some mv).toList = [mv] from rfl, replay_append, ih.1]
      simpa using happ
    · simp [ih.2, hd]

theorem NodeOK.reach (root : List Nat) (s : State) (hok : NodeOK root s) :
    ReachN s.depth root s.tiles :=
  ⟨get_solution_moves s, (hok.sol root s).2, (hok.sol root s).1⟩

theorem target_ne_eidx (n : Nat) (hn : 0 < n) (eidx : Nat)
    (a b : Nat) (hb : b < n) (hab : a ≠ eidx / n ∨ b ≠ eidx % n) :
    a * n + b ≠ eidx := by
  intro he
  have h1 : (a * n + b) / n = a := idx_div a b n hn hb
  have h2 : (a * n + b) % n = b := idx_mod a b n hb
  rcases hab with h | h
  · exact h (by rw [← he, h1])
  · exact h (by rw [← he, h2])

/-- The engine-relevant facts about every generated child: it is
well-formed, its board is a permutation of the parent's and is obtained
by one applicable move, its depth is the parent's plus one, its parent
pointer and move label are set, and its board differs from the
parent's. -/
theorem generate_child_spec (n : Nat) (hn : 0 < n) (cur : State) (hwf : WF cur)
    (hperm : cur.tiles.Perm (List.range (n * n))) :
    ∀ t ∈ cur.generate_possible_states,
      WF t ∧ t.tiles.Perm cur.tiles ∧ t.depth = cur.depth + 1 ∧
      t.parent = some cur ∧
      (∃ mv, t.parent_move = some mv ∧ applyMove mv cur.tiles = some t.tiles) ∧
      t.tiles ≠ cur.tiles := by
  intro t ht
  have hlen : cur.tiles.length = n * n := by simpa using hperm.length_eq
  have hdim : cur.dimensions = n := by rw [hwf.1, hlen, intSqrt_sq]
  have her : cur.empty_row = cur.tiles.indexOf 0 / n := by rw [hwf.2.1, hdim]
  have hec : cur.empty_col = cur.tiles.indexOf 0 % n := by rw [hwf.2.2, hdim]
  set b := cur.tiles with hb
  set eidx := b.indexOf 0 with heidxdef
  have h0mem : (0 : Nat) ∈ b :=
    hperm.mem_iff.mpr (List.mem_range.mpr (by positivity))
  have heidx : eidx < b.length := List.indexOf_lt_length.mpr h0mem
  have heclt : eidx % n < n := Nat.mod_lt _ hn
  have hkey : ∀ (mv : Move) (u : State), cur.moveOf mv = some u →
      (∃ r c : Int,
        0 ≤ r ∧ r < (n : Int) ∧ 0 ≤ c ∧ c < (n : Int) ∧
        r.toNat * n + c.toNat ≠ eidx ∧ u = cur.move_empty_to r c) := by
    intro mv u hmu
    obtain ⟨⟨hb1, hb2, hb3, hb4⟩, hu⟩ := (moveOf_eq_some cur u mv).mp hmu
    refine ⟨targetRow cur mv, targetCol cur mv, hb1, by rwa [hdim] at hb2, hb3,
      by rwa [hdim] at hb4, ?_, hu⟩
    cases mv <;>
      simp only [targetRow, targetCol, her, hec] at hb1 hb2 hb3 hb4 ⊢ <;>
      [exact target_ne_eidx n hn eidx _ _ (by omega) (Or.inl (by omega));
        exact target_ne_eidx n hn eidx _ _ (by omega) (Or.inl (by omega));
        exact target_ne_eidx n hn eidx _ _ (by omega) (Or.inr (by omega));
        exact target_ne_eidx n hn eidx _ _ (by omega) (Or.inr (by omega))]
  have main : ∀ (mv : Move) (u : State), cur.moveOf mv = some u →
      ∀ m, ((u.withMoveInfo mv m) : State).tiles ≠ cur.tiles ∧
        WF (u.withMoveInfo mv m) ∧
        (u.withMoveInfo mv m).tiles.Perm cur.tiles ∧
        (u.withMoveInfo mv m).depth = cur.depth + 1 ∧
        (u.withMoveInfo mv m).parent = some cur ∧
        (u.withMoveInfo mv m).parent_move = some mv ∧
        applyMove mv cur.tiles = some (u.withMoveInfo mv m).tiles := by
    intro mv u hmu m
    obtain ⟨r, c, hr0, hrn, hc0, hcn, hne, hu⟩ := hkey mv u hmu
    obtain ⟨_, hpermc, hidxof, _, _, _, hdep, hpar, _, hwfc⟩ :=
      move_empty_to_spec n hn cur hwf hperm r c hr0 hrn hc0 hcn hne
    subst hu
    refine ⟨?_, WF_withMoveInfo _ mv m hwfc, by simpa using hpermc,
      by simpa using hdep, by simpa using hpar,
      State.withMoveInfo_parent_move _ mv m, ?_⟩
    · intro hteq
      apply hne
      rw [State.withMoveInfo_tiles] at hteq
      rw [← hidxof, hteq]
    · rw [applyMove_eq cur hwf mv, hmu, State.withMoveInfo_tiles]
      rfl
  rcases (mem_generate cur t).mp ht with ⟨u, hmu, rfl⟩ | ⟨u, hmu, rfl⟩ |
    ⟨u, hmu, rfl⟩ | ⟨u, hmu, rfl⟩ <;>
    [obtain ⟨h1, h2, h3, h4, h5, h6, h7⟩ := main .Up u hmu _;
      obtain ⟨h1, h2, h3, h4, h5, h6, h7⟩ := main .Down u hmu _;
      obtain ⟨h1, h2, h3, h4, h5, h6, h7⟩ := main .Left u hmu _;
      obtain ⟨h1, h2, h3, h4, h5, h6, h7⟩ := main .Right u hmu _] <;>
    exact ⟨h2, h3, h4, h5, ⟨_, h6, h7⟩, h1⟩

/-! ### Multiset behaviour of the embedded heap operations -/

theorem set_append_perm_st (d x : State) :
    ∀ (l : List State) (i : Nat), i < l.length →
      (l.set i x ++ [l.getD i d]).Perm (l ++ [x]) := by
  intro l
  induction l with
  | nil =>
    intro i hi
    simp at hi
  | cons a as ih =>
    intro i hi
    cases i with
    | zero =>
      show (x :: (as ++ [a])).Perm (a :: (as ++ [x]))
      have p1 : (x :: (as ++ [a])).Perm (x :: a :: as) :=
        (List.perm_append_singleton a as).cons x
      have p2 : (x :: a :: as).Perm (a :: x :: as) := List.Perm.swap a x as
      have p3 : (a :: x :: as).Perm (a :: (as ++ [x])) :=
        ((List.perm_append_singleton x as).symm).cons a
      exact p1.trans (p2.trans p3)
    | succ k =>
      have hk : k < as.length := by simpa using hi
      show (a :: (as.set k x ++ [as.getD k d])).Perm (a :: (as ++ [x]))
      exact (ih k hk).cons a

theorem append_two_swap (l : List State) (a b : State) :
    (l ++ [a] ++ [b]).Perm (l ++ [b] ++ [a]) := by
  rw [List.append_assoc, List.append_assoc]
  exact List.Perm.append_left l (List.Perm.swap b a [])

theorem set_swap_perm (d : State) (l : List State) (i j : Nat)
    (hi : i < l.length) (hj : j < l.length) (hij : i ≠ j) (y : State) :
    ((l.set i (l.getD j d)).set j y).Perm (l.set i y) := by
  set gj := l.getD j d with hgj
  set gi := l.getD i d with hgi
  have hgj' : (l.set i gj).getD j d = gj := by
    rw [List.getD_eq_getElem _ d (by simpa using hj), List.getElem_set_ne hij,
      ← List.getD_eq_getElem l d hj]
  have hA : (l.set i y ++ [gi]).Perm (l ++ [y]) := set_append_perm_st d y l i hi
  have hB : ((l.set i gj).set j y ++ [gj]).Perm ((l.set i gj) ++ [y]) := by
    have := set_append_perm_st d y (l.set i gj) j (by simpa using hj)
    rwa [hgj'] at this
  have hC : (l.set i gj ++ [gi]).Perm (l ++ [gj]) := set_append_perm_st d gj l i hi
  have s2 : ((l.set i gj).set j y ++ [gj] ++ [gi]).Perm
      ((l.set i gj) ++ [y] ++ [gi]) := hB.append_right [gi]
  have s3 : ((l.set i gj) ++ [y] ++ [gi]).Perm ((l.set i gj) ++ [gi] ++ [y]) :=
    append_two_swap _ y gi
  have s4 : ((l.set i gj) ++ [gi] ++ [y]).Perm ((l ++ [gj]) ++ [y]) :=
    hC.append_right [y]
  have s5 : (l.set i y ++ [gi] ++ [gj]).Perm ((l ++ [y]) ++ [gj]) :=
    hA.append_right [gj]
  have s6 : ((l ++ [y]) ++ [gj]).Perm ((l ++ [gj]) ++ [y]) :=
    append_two_swap l y gj
  have s0 : ((l.set i gj).set j y ++ [gi] ++ [gj]).Perm
      ((l.set i gj).set j y ++ [gj] ++ [gi]) := append_two_swap _ gi gj
  have big : ((l.set i gj).set j y ++ [gi] ++ [gj]).Perm
      (l.set i y ++ [gi] ++ [gj]) :=
    (((s0.trans s2).trans s3).trans s4).trans (s6.symm.trans s5.symm)
  have c1 := (List.perm_append_right_iff [gj]).mp big
  exact (List.perm_append_right_iff [gi]).mp c1

theorem siftdownFuel_succ (fuel : Nat) (heap : List State) (sp pos : Nat)
    (x : State) :
    siftdownFuel (fuel + 1) heap sp pos x =
      if sp < pos then
        (if ltState x (heap.getD ((pos - 1) / 2) dfltState) = true then
          siftdownFuel fuel (heap.set pos (heap.getD ((pos - 1) / 2) dfltState))
            sp ((pos - 1) / 2) x
        else heap.set pos x)
      else heap.set pos x := rfl

theorem siftdownFuel_perm :
    ∀ (fuel : Nat) (heap : List State) (sp pos : Nat) (x : State),
      pos < heap.length → (siftdownFuel fuel heap sp pos x).Perm (heap.set pos x)
  | 0, heap, sp, pos, x, _ => List.Perm.refl _
  | fuel + 1, heap, sp, pos, x, hpos => by
    rw [siftdownFuel_succ]
    split
    case isFalse => exact List.Perm.refl _
    case isTrue hsp =>
      split
      case isFalse => exact List.Perm.refl _
      case isTrue hlt =>
        have hpp : (pos - 1) / 2 < pos :=
          lt_of_le_of_lt (Nat.div_le_self _ _) (by omega)
        have ih := siftdownFuel_perm fuel
          (heap.set pos (heap.getD ((pos - 1) / 2) dfltState))
          sp ((pos - 1) / 2) x (by simpa using lt_trans hpp hpos)
        exact ih.trans
          (set_swap_perm dfltState heap pos ((pos - 1) / 2) hpos
            (lt_trans hpp hpos) (by omega) x)

theorem set_append_len (l : List State) (x y : State) :
    (l ++ [x]).set l.length y = l ++ [y] := by
  induction l with
  | nil => rfl
  | cons a as ih =>
    show a :: ((as ++ [x]).set as.length y) = a :: (as ++ [y])
    rw [ih]

theorem heappush_perm (l : List State) (x : State) :
    (heappush l x).Perm (x :: l) := by
  have h1 : (siftdownFuel l.length (l ++ [x]) 0 l.length x).Perm
      ((l ++ [x]).set l.length x) :=
    siftdownFuel_perm l.length (l ++ [x]) 0 l.length x (by simp)
  rw [set_append_len] at h1
  exact h1.trans (List.perm_append_singleton x l)

/-- The child slot chosen by one `_siftup` iteration. -/
def siftChildPos (heap : List State) (pos : Nat) : Nat :=
  if 2 * pos + 1 + 1 < heap.length ∧
      ¬ ltState (heap.getD (2 * pos + 1) dfltState)
        (heap.getD (2 * pos + 1 + 1) dfltState) = true then
    2 * pos + 1 + 1
  else 2 * pos + 1

theorem siftupFuel_succ (fuel : Nat) (heap : List State) (pos : Nat) (x : State)
    (sp : Nat) :
    siftupFuel (fuel + 1) heap pos x sp =
      if 2 * pos + 1 < heap.length then
        siftupFuel fuel (heap.set pos (heap.getD (siftChildPos heap pos) dfltState))
          (siftChildPos heap pos) x sp
      else siftdown (heap.set pos x) sp pos x := rfl

theorem siftChildPos_lt (heap : List State) (pos : Nat)
    (hc : 2 * pos + 1 < heap.length) :
    pos < siftChildPos heap pos ∧ siftChildPos heap pos < heap.length := by
  rw [siftChildPos]
  split <;> omega

theorem siftupFuel_perm :
    ∀ (fuel : Nat) (heap : List State) (pos : Nat) (x : State) (sp : Nat),
      pos < heap.length → (siftupFuel fuel heap pos x sp).Perm (heap.set pos x)
  | 0, heap, pos, x, sp, hpos => by
    show (siftdown (heap.set pos x) sp pos x).Perm (heap.set pos x)
    have h1 : (siftdownFuel pos (heap.set pos x) sp pos x).Perm
        ((heap.set pos x).set pos x) :=
      siftdownFuel_perm pos (heap.set pos x) sp pos x (by simpa using hpos)
    rw [List.set_set] at h1
    exact h1
  | fuel + 1, heap, pos, x, sp, hpos => by
    rw [siftupFuel_succ]
    split
    case isFalse =>
      have h1 : (siftdownFuel pos (heap.set pos x) sp pos x).Perm
          ((heap.set pos x).set pos x) :=
        siftdownFuel_perm pos (heap.set pos x) sp pos x (by simpa using hpos)
      rw [List.set_set] at h1
      exact h1
    case isTrue hc =>
      obtain ⟨hcpp, hcpl⟩ := siftChildPos_lt heap pos hc
      have ih := siftupFuel_perm fuel
        (heap.set pos (heap.getD (siftChildPos heap pos) dfltState))
        (siftChildPos heap pos) x sp (by simpa using hcpl)
      exact ih.trans
        (set_swap_perm dfltState heap pos (siftChildPos heap pos) hpos hcpl
          (by omega) x)

theorem heappop_perm (heap : List State) (hne : heap ≠ []) :
    ∃ cur rest, heappop heap = some (cur, rest) ∧ heap.Perm (cur :: rest) := by
  cases heap with
  | nil => exact absurd rfl hne
  | cons a t =>
    cases t with
    | nil => exact ⟨a, [], rfl, List.Perm.refl _⟩
    | cons b t2 =>
      have hne' : (a :: b :: t2) ≠ [] := by simp
      have hlast : (a :: b :: t2).dropLast ++ [(a :: b :: t2).getLast hne'] =
          a :: b :: t2 := List.dropLast_append_getLast hne'
      have hgld : (a :: b :: t2).getLastD dfltState =
          (a :: b :: t2).getLast hne' := by
        rw [List.getLastD_eq_getLast?, List.getLast?_eq_getLast _ hne']
        rfl
      have hrne : (a :: b :: t2).dropLast.isEmpty = false := by
        rw [List.isEmpty_eq_false]
        simp
      have hlen0 : 0 < (a :: b :: t2).dropLast.length := by
        simp
      rw [heappop, if_neg (by simp), if_neg (by rw [hrne]; simp)]
      refine ⟨(a :: b :: t2).dropLast.getD 0 dfltState, _, rfl, ?_⟩
      set dl := (a :: b :: t2).dropLast with hdl
      set le := (a :: b :: t2).getLastD dfltState with hle
      have hsift : (siftupFuel (dl.set 0 le).length (dl.set 0 le) 0 le 0).Perm
          ((dl.set 0 le).set 0 le) :=
        siftupFuel_perm _ _ 0 _ 0 (by simpa using hlen0)
      rw [List.set_set] at hsift
      have hsw : (dl.set 0 le ++ [dl.getD 0 dfltState]).Perm (dl ++ [le]) :=
        set_append_perm_st dfltState le dl 0 hlen0
      have h2 : (dl ++ [le]).Perm (dl.getD 0 dfltState :: dl.set 0 le) :=
        (hsw.symm).trans (List.perm_append_singleton _ _)
      have h3 : (a :: b :: t2).Perm (dl ++ [le]) := by
        rw [hgld, hlast]
      exact h3.trans (h2.trans ((hsift.symm).cons _))

theorem popCur_spec (algo : Algo) (f : List State) (hne : f ≠ []) :
    ∃ cur rest, popCur algo f = some (cur, rest) ∧ f.Perm (cur :: rest) := by
  cases algo with
  | bfs =>
    cases f with
    | nil => exact absurd rfl hne
    | cons c r => exact ⟨c, r, rfl, List.Perm.refl _⟩
  | dfs =>
    refine ⟨f.getLast hne, f.dropLast, ?_, ?_⟩
    · show (match f.getLast? with
        | none => none
        | some c => some (c, f.dropLast)) = _
      rw [List.getLast?_eq_getLast f hne]
    · conv_lhs => rw [← List.dropLast_append_getLast hne]
      exact List.perm_append_singleton _ _
  | ast => exact heappop_perm f hne

/-! ### The search-loop invariant -/

/-- The facts known about every generated child of an expanded node. -/
def ChildProp (n : Nat) (root : List Nat) (cur t : State) : Prop :=
  WF t ∧ t.tiles.Perm (List.range (n * n)) ∧ t.depth = cur.depth + 1 ∧
  NodeOK root t ∧ t.tiles ≠ cur.tiles ∧ Step cur.tiles t.tiles

theorem childProp_of_generate (n : Nat) (hn : 0 < n) (root : List Nat)
    (cur : State) (hwf : WF cur) (hperm : cur.tiles.Perm (List.range (n * n)))
    (hok : NodeOK root cur) :
    ∀ t ∈ cur.generate_possible_states, ChildProp n root cur t := by
  intro t ht
  obtain ⟨h1, h2, h3, h4, ⟨mv, h5, h6⟩, h7⟩ :=
    generate_child_spec n hn cur hwf hperm t ht
  exact ⟨h1, h2.trans hperm, h3, NodeOK.child t cur mv h4 h5 h3 h6 hok, h7,
    ⟨mv, h6⟩⟩

/-- The invariant of `NPuzzleSolver.solve` at the top of each loop
iteration, shared by the three strategies. -/
structure SInv (n : Nat) (root : List Nat) (slv : Solver) : Prop where
  fr_wf : ∀ s ∈ slv.frontier, WF s
  fr_perm : ∀ s ∈ slv.frontier, s.tiles.Perm (List.range (n * n))
  fr_ok : ∀ s ∈ slv.frontier, NodeOK root s
  sync : slv.frontier_set.Perm (slv.frontier.map State.tiles)
  set_nd : slv.frontier_set.Nodup
  exp_nd : slv.explored.Nodup
  disj : ∀ b ∈ slv.explored, b ∉ slv.frontier_set
  exp_perm : ∀ b ∈ slv.explored, b.Perm (List.range (n * n))
  closed : ∀ b ∈ slv.explored, ∀ b2, Step b b2 →
    b2 ∈ slv.explored ∨ b2 ∈ slv.frontier_set
  root_mem : root ∈ slv.explored ∨ root ∈ slv.frontier_set
  exp_not_goal : ∀ b ∈ slv.explored, goalCheck b = false
  exp_reach : ∀ b ∈ slv.explored, ∃ k, ReachN k root b

/-- The weakened invariant holding while the popped node `cur` is being
expanded (it has left the frontier but is not yet in the explored set). -/
structure PopInv (n : Nat) (root : List Nat) (cur : State) (slv : Solver) :
    Prop where
  fr_wf : ∀ s ∈ slv.frontier, WF s
  fr_perm : ∀ s ∈ slv.frontier, s.tiles.Perm (List.range (n * n))
  fr_ok : ∀ s ∈ slv.frontier, NodeOK root s
  sync : slv.frontier_set.Perm (slv.frontier.map State.tiles)
  set_nd : slv.frontier_set.Nodup
  exp_nd : slv.explored.Nodup
  disj : ∀ b ∈ slv.explored, b ∉ slv.frontier_set
  exp_perm : ∀ b ∈ slv.explored, b.Perm (List.range (n * n))
  closed3 : ∀ b ∈ slv.explored, ∀ b2, Step b b2 →
    b2 ∈ slv.explored ∨ b2 ∈ slv.frontier_set ∨ b2 = cur.tiles
  root_mem3 : root ∈ slv.explored ∨ root ∈ slv.frontier_set ∨ root = cur.tiles
  exp_not_goal : ∀ b ∈ slv.explored, goalCheck b = false
  exp_reach : ∀ b ∈ slv.explored, ∃ k, ReachN k root b
  cur_not_set : cur.tiles ∉ slv.frontier_set
  cur_not_exp : cur.tiles ∉ slv.explored

theorem popCur_nil (algo : Algo) : popCur algo [] = none := by
  cases algo <;> rfl

theorem erase_inst_eq (l : List (List Nat)) (a : List Nat) :
    l.erase a = @List.erase _ instBEqOfDecidableEq l a := by
  induction l with
  | nil => rfl
  | cons x xs ih =>
    by_cases h : x = a
    · simp [List.erase_cons, h]
    · simp [List.erase_cons, h, ih]

theorem perm_erase' (l₁ l₂ : List (List Nat)) (a : List Nat) (h : l₁.Perm l₂) :
    (l₁.erase a).Perm (l₂.erase a) := by
  rw [erase_inst_eq, erase_inst_eq]
  exact h.erase a

theorem nodup_erase' (l : List (List Nat)) (a : List Nat) (h : l.Nodup) :
    (l.erase a).Nodup := h.erase a

theorem mem_of_mem_erase' (l : List (List Nat)) (a b : List Nat)
    (h : b ∈ l.erase a) : b ∈ l := List.mem_of_mem_erase h

theorem mem_erase_iff' (l : List (List Nat)) (a b : List Nat) (hnd : l.Nodup) :
    b ∈ l.erase a ↔ b ≠ a ∧ b ∈ l := hnd.mem_erase_iff

/-- The solver just after popping `cur`: frontier replaced by the
remainder, `cur`'s board erased from the membership set. -/
def popUpdate (slv : Solver) (cur : State) (rest : List State) : Solver :=
  { slv with
    frontier := rest
    frontier_set := slv.frontier_set.erase cur.tiles }

/-- Popping under the invariant: the popped node was a frontier member
and the weakened invariant holds for the updated solver. -/
theorem pop_mid (n : Nat) (root : List Nat) (slv : Solver) (cur : State)
    (rest : List State) (hinv : SInv n root slv)
    (hpop : popCur slv.algo slv.frontier = some (cur, rest)) :
    cur ∈ slv.frontier ∧ slv.frontier.Perm (cur :: rest) ∧
    PopInv n root cur (popUpdate slv cur rest) := by
  have hfne : slv.frontier ≠ [] := by
    intro h
    rw [h, popCur_nil] at hpop
    cases hpop
  obtain ⟨cur', rest', hpop', hperm'⟩ := popCur_spec slv.algo slv.frontier hfne
  rw [hpop'] at hpop
  obtain ⟨rfl, rfl⟩ : cur = cur' ∧ rest = rest' := by
    have h1 := (Option.some_inj.mp hpop)
    exact ⟨(congrArg Prod.fst h1).symm, (congrArg Prod.snd h1).symm⟩
  have hcurmem : cur ∈ slv.frontier := hperm'.mem_iff.mpr (List.mem_cons_self _ _)
  have hrestmem : ∀ s ∈ rest, s ∈ slv.frontier := fun s hs =>
    hperm'.mem_iff.mpr (List.mem_cons_of_mem _ hs)
  have hcurtiles : cur.tiles ∈ slv.frontier_set := by
    apply hinv.sync.mem_iff.mpr
    exact List.mem_map_of_mem State.tiles hcurmem
  have hsync2 : (slv.frontier_set.erase cur.tiles).Perm (rest.map State.tiles) := by
    have h1 : (slv.frontier_set.erase cur.tiles).Perm
        ((slv.frontier.map State.tiles).erase cur.tiles) :=
      perm_erase' _ _ _ hinv.sync
    have h2 : ((slv.frontier.map State.tiles).erase cur.tiles).Perm
        (((cur :: rest).map State.tiles).erase cur.tiles) :=
      perm_erase' _ _ _ (hperm'.map State.tiles)
    have h3 : ((cur :: rest).map State.tiles).erase cur.tiles =
        rest.map State.tiles := by
      rw [List.map_cons, List.erase_cons_head]
    exact h1.trans (h2.trans (by rw [h3]))
  refine ⟨hcurmem, hperm', ?_⟩
  refine ⟨fun s hs => hinv.fr_wf s (hrestmem s hs),
    fun s hs => hinv.fr_perm s (hrestmem s hs),
    fun s hs => hinv.fr_ok s (hrestmem s hs),
    hsync2, nodup_erase' _ _ hinv.set_nd, hinv.exp_nd, ?_, hinv.exp_perm, ?_, ?_,
    hinv.exp_not_goal, hinv.exp_reach, ?_, ?_⟩
  · intro b hb hbe
    exact hinv.disj b hb (mem_of_mem_erase' _ _ _ hbe)
  · intro b hb b2 hstep
    rcases hinv.closed b hb b2 hstep with h | h
    · exact Or.inl h
    · by_cases hbc : b2 = cur.tiles
      · exact Or.inr (Or.inr hbc)
      · exact Or.inr (Or.inl ((mem_erase_iff' _ _ _ hinv.set_nd).mpr ⟨hbc, h⟩))
  · rcases hinv.root_mem with h | h
    · exact Or.inl h
    · by_cases hbc : root = cur.tiles
      · exact Or.inr (Or.inr hbc)
      · exact Or.inr (Or.inl ((mem_erase_iff' _ _ _ hinv.set_nd).mpr ⟨hbc, h⟩))
  · intro hmem
    exact absurd rfl ((mem_erase_iff' _ _ _ hinv.set_nd).mp hmem).1
  · intro hexp
    exact hinv.disj _ hexp hcurtiles

/-- The neighbor-insertion fold of one loop iteration. -/
def foldIns (slv : Solver) (maxd : Nat) (ns : List State) : Solver × Nat :=
  ns.foldl (fun p t => insertNeighbor p.1 p.2 t) (slv, maxd)

theorem foldIns_nil (slv : Solver) (maxd : Nat) : foldIns slv maxd [] = (slv, maxd) :=
  rfl

theorem foldIns_cons (slv : Solver) (maxd : Nat) (t : State) (ts : List State) :
    foldIns slv maxd (t :: ts) =
      foldIns (insertNeighbor slv maxd t).1 (insertNeighbor slv maxd t).2 ts := by
  rw [foldIns, foldIns, List.foldl_cons]

theorem insertNeighbor_skip (slv : Solver) (maxd : Nat) (t : State)
    (h : t.tiles ∈ slv.explored ∨ t.tiles ∈ slv.frontier_set) :
    insertNeighbor slv maxd t = (slv, maxd) := by
  rw [insertNeighbor, if_pos h]

theorem insertNeighbor_ins (slv : Solver) (maxd : Nat) (t : State)
    (h : ¬ (t.tiles ∈ slv.explored ∨ t.tiles ∈ slv.frontier_set)) :
    insertNeighbor slv maxd t =
      ({ slv with
          frontier :=
            match slv.algo with
            | .bfs | .dfs => slv.frontier ++ [t]
            | .ast => heappush slv.frontier t
          frontier_set := slv.frontier_set ++ [t.tiles] },
        if t.depth > maxd then t.depth else maxd) := by
  rw [insertNeighbor, if_neg h]

/-- Folding the neighbor insertions preserves the mid-expansion
invariant; the explored set is untouched, the membership set only
grows, every processed neighbor's board ends up in the explored set or
the membership set, and the frontier gains exactly the neighbors whose
boards were fresh. -/
theorem fold_insert (n : Nat) (root : List Nat) (cur : State) :
    ∀ (ns : List State) (slv : Solver) (maxd : Nat),
      (∀ t ∈ ns, ChildProp n root cur t) →
      PopInv n root cur slv →
      PopInv n root cur (foldIns slv maxd ns).1 ∧
      (foldIns slv maxd ns).1.explored = slv.explored ∧
      (foldIns slv maxd ns).1.algo = slv.algo ∧
      (∀ b ∈ slv.frontier_set, b ∈ (foldIns slv maxd ns).1.frontier_set) ∧
      (∀ t ∈ ns, t.tiles ∈ (foldIns slv maxd ns).1.explored ∨
        t.tiles ∈ (foldIns slv maxd ns).1.frontier_set) ∧
      ∃ ws : List State,
        (∀ w ∈ ws, w ∈ ns ∧ w.tiles ∉ slv.explored ∧
          w.tiles ∉ slv.frontier_set) ∧
        (foldIns slv maxd ns).1.frontier.Perm (slv.frontier ++ ws) ∧
        ((slv.algo = .bfs ∨ slv.algo = .dfs) →
          (foldIns slv maxd ns).1.frontier = slv.frontier ++ ws) := by
  intro ns
  induction ns with
  | nil =>
    intro slv maxd _ hmid
    rw [foldIns_nil]
    exact ⟨hmid, rfl, rfl, fun b hb => hb, by simp, [], by simp, by simp,
      fun _ => by simp⟩
  | cons t ts ih =>
    intro slv maxd hprops hmid
    have hpt : ChildProp n root cur t := hprops t (List.mem_cons_self _ _)
    have hpts : ∀ t' ∈ ts, ChildProp n root cur t' := fun t' ht' =>
      hprops t' (List.mem_cons_of_mem _ ht')
    by_cases hskip : t.tiles ∈ slv.explored ∨ t.tiles ∈ slv.frontier_set
    · rw [foldIns_cons, insertNeighbor_skip slv maxd t hskip]
      obtain ⟨q1, q2, q3, q4, q5, ws, qw, qperm, qeq⟩ := ih slv maxd hpts hmid
      refine ⟨q1, q2, q3, q4, ?_, ws, ?_, qperm, qeq⟩
      · intro t' ht'
        rcases List.mem_cons.mp ht' with rfl | ht'
        · rcases hskip with h | h
          · exact Or.inl (by rw [q2]; exact h)
          · exact Or.inr (q4 _ h)
        · exact q5 t' ht'
      · intro w hw
        obtain ⟨hw1, hw2, hw3⟩ := qw w hw
        exact ⟨List.mem_cons_of_mem _ hw1, hw2, hw3⟩
    · rw [foldIns_cons, insertNeighbor_ins slv maxd t hskip]
      push_neg at hskip
      obtain ⟨hte, hts⟩ := hskip
      set slv1 : Solver :=
        { slv with
          frontier :=
            match slv.algo with
            | .bfs | .dfs => slv.frontier ++ [t]
            | .ast => heappush slv.frontier t
          frontier_set := slv.frontier_set ++ [t.tiles] } with hslv1
      have halgo1 : slv1.algo = slv.algo := rfl
      have hexp1 : slv1.explored = slv.explored := rfl
      have hset1 : slv1.frontier_set = slv.frontier_set ++ [t.tiles] := rfl
      have hfr1 : slv1.frontier.Perm (slv.frontier ++ [t]) := by
        rw [hslv1]
        cases slv.algo with
        | bfs => exact List.Perm.refl _
        | dfs => exact List.Perm.refl _
        | ast =>
          exact (heappush_perm slv.frontier t).trans
            (List.perm_append_singleton t slv.frontier).symm
      have hfr1mem : ∀ s, s ∈ slv1.frontier ↔ (s ∈ slv.frontier ∨ s = t) := by
        intro s
        rw [hfr1.mem_iff]
        simp
      obtain ⟨c1, c2, c3, c4, c5, c6⟩ := hpt
      have hmid1 : PopInv n root cur slv1 := by
        refine ⟨?_, ?_, ?_, ?_, ?_, hmid.exp_nd, ?_, hmid.exp_perm, ?_, ?_,
          hmid.exp_not_goal, hmid.exp_reach, ?_, hmid.cur_not_exp⟩
        · intro s hs
          rcases (hfr1mem s).mp hs with h | rfl
          · exact hmid.fr_wf s h
          · exact c1
        · intro s hs
          rcases (hfr1mem s).mp hs with h | rfl
          · exact hmid.fr_perm s h
          · exact c2
        · intro s hs
          rcases (hfr1mem s).mp hs with h | rfl
          · exact hmid.fr_ok s h
          · exact c4
        · rw [hset1]
          have h1 : (slv.frontier_set ++ [t.tiles]).Perm
              (slv.frontier.map State.tiles ++ [t.tiles]) :=
            hmid.sync.append_right _
          have h2 : slv.frontier.map State.tiles ++ [t.tiles] =
              (slv.frontier ++ [t]).map State.tiles := by
            rw [List.map_append]
            rfl
          exact h1.trans (by rw [h2]; exact (hfr1.map _).symm)
        · rw [hset1]
          apply ((List.perm_append_singleton _ _).nodup_iff).mpr
          exact List.nodup_cons.mpr ⟨hts, hmid.set_nd⟩
        · intro b hb
          rw [hset1]
          intro hmem
          rcases List.mem_append.mp hmem with h | h
          · exact hmid.disj b hb h
          · rw [List.mem_singleton] at h
            subst h
            exact hte hb
        · intro b hb b2 hstep
          rcases hmid.closed3 b hb b2 hstep with h | h | h
          · exact Or.inl h
          · exact Or.inr (Or.inl (by rw [hset1]; exact List.mem_append_left _ h))
          · exact Or.inr (Or.inr h)
        · rcases hmid.root_mem3 with h | h | h
          · exact Or.inl h
          · exact Or.inr (Or.inl (by rw [hset1]; exact List.mem_append_left _ h))
          · exact Or.inr (Or.inr h)
        · rw [hset1]
          intro hmem
          rcases List.mem_append.mp hmem with h | h
          · exact hmid.cur_not_set h
          · rw [List.mem_singleton] at h
            exact c5 h.symm
      obtain ⟨q1, q2, q3, q4, q5, ws, qw, qperm, qeq⟩ :=
        ih slv1 (if t.depth > maxd then t.depth else maxd) hpts hmid1
      refine ⟨q1, q2.trans hexp1, q3.trans halgo1, ?_, ?_, t :: ws, ?_, ?_, ?_⟩
      · intro b hb
        exact q4 b (by rw [hset1]; exact List.mem_append_left _ hb)
      · intro t' ht'
        rcases List.mem_cons.mp ht' with rfl | ht'
        · exact Or.inr (q4 _ (by rw [hset1]; exact List.mem_append_right _ (by simp)))
        · exact q5 t' ht'
      · intro w hw
        rcases List.mem_cons.mp hw with rfl | hw
        · exact ⟨List.mem_cons_self _ _, hte, hts⟩
        · obtain ⟨hw1, hw2, hw3⟩ := qw w hw
          refine ⟨List.mem_cons_of_mem _ hw1, by rwa [hexp1] at hw2, ?_⟩
          intro hmem
          exact hw3 (by rw [hset1]; exact List.mem_append_left _ hmem)
      · have h1 : (foldIns slv1 (if t.depth > maxd then t.depth else maxd) ts).1.frontier.Perm
            (slv1.frontier ++ ws) := qperm
        have h2 : (slv1.frontier ++ ws).Perm ((slv.frontier ++ [t]) ++ ws) :=
          hfr1.append_right ws
        have h3 : (slv.frontier ++ [t]) ++ ws = slv.frontier ++ (t :: ws) := by
          rw [List.append_assoc]
          rfl
        exact h1.trans (h2.trans (by rw [h3]))
      · intro halgo
        have heq1 : slv1.frontier = slv.frontier ++ [t] := by
          rw [hslv1]
          rcases halgo with h | h <;> rw [h]
        have heq2 := qeq (by rwa [halgo1])
        rw [heq2, heq1, List.append_assoc]
        rfl

/-- Converse of child generation: every board one blank move away from a
well-formed node's board is the board of some generated successor. -/
theorem step_mem_generate (cur : State) (hwf : WF cur) (b2 : List Nat)
    (hstep : Step cur.tiles b2) :
    ∃ t ∈ cur.generate_possible_states, t.tiles = b2 := by
  obtain ⟨mv, hmv⟩ := hstep
  rw [applyMove_eq cur hwf mv] at hmv
  cases h : cur.moveOf mv with
  | none =>
    rw [h] at hmv
    cases hmv
  | some u =>
    rw [h] at hmv
    have hu : u.tiles = b2 := by
      simpa using hmv
    refine ⟨u.withMoveInfo mv (cur.number_of_moves + 1), ?_, by
      rw [State.withMoveInfo_tiles]
      exact hu⟩
    rw [mem_generate]
    cases mv with
    | Up => exact Or.inl ⟨u, h, rfl⟩
    | Down => exact Or.inr (Or.inl ⟨u, h, rfl⟩)
    | Left => exact Or.inr (Or.inr (Or.inl ⟨u, h, rfl⟩))
    | Right => exact Or.inr (Or.inr (Or.inr ⟨u, h, rfl⟩))

/-- The neighbor list processed for the popped node (reversed for DFS). -/
def expandNs (slv : Solver) (cur : State) : List State :=
  if slv.algo = .dfs then cur.generate_possible_states.reverse
  else cur.generate_possible_states

/-- The solver-and-maxdepth pair after the whole neighbor loop. -/
def expandFold (slv : Solver) (maxd : Nat) (cur : State) (rest : List State) :
    Solver × Nat :=
  foldIns (popUpdate slv cur rest) maxd (expandNs slv cur)

/-- The solver at the end of a non-goal iteration: neighbor loop done and
the expanded board added to the explored set. -/
def expandUpd (slv : Solver) (maxd : Nat) (cur : State) (rest : List State) :
    Solver :=
  { (expandFold slv maxd cur rest).1 with
    explored :=
      addSet (expandFold slv maxd cur rest).1.explored cur.tiles }

theorem solveBody_stuck (slv : Solver) (maxd : Nat)
    (hp : popCur slv.algo slv.frontier = none) :
    solveBody slv maxd = .stuck := by
  rw [solveBody, hp]

theorem solveBody_goal (slv : Solver) (maxd : Nat) (cur : State)
    (rest : List State) (hp : popCur slv.algo slv.frontier = some (cur, rest))
    (hg : NPuzzleSolver.isFinalState cur = true) :
    solveBody slv maxd =
      .success
        { nodes_expanded := slv.explored.length
          search_depth := cur.depth
          max_search_depth := maxd
          cost_of_path := (get_solution_moves cur).length
          path := get_solution_moves cur }
        (popUpdate slv cur rest) := by
  rw [solveBody, hp]
  simp only [hg, if_true]
  rfl

theorem solveBody_expand (slv : Solver) (maxd : Nat) (cur : State)
    (rest : List State) (hp : popCur slv.algo slv.frontier = some (cur, rest))
    (hg : NPuzzleSolver.isFinalState cur = false) :
    solveBody slv maxd =
      if (expandFold slv maxd cur rest).1.frontier.isEmpty then
        .failure (expandUpd slv maxd cur rest)
      else
        .next (expandUpd slv maxd cur rest)
          (expandFold slv maxd cur rest).2 := by
  rw [solveBody, hp]
  simp only [hg, Bool.false_eq_true, if_false]
  rfl

theorem popUpdate_algo (slv : Solver) (cur : State) (rest : List State) :
    (popUpdate slv cur rest).algo = slv.algo := rfl

theorem expandUpd_frontier (slv : Solver) (maxd : Nat) (cur : State)
    (rest : List State) :
    (expandUpd slv maxd cur rest).frontier =
      (expandFold slv maxd cur rest).1.frontier := rfl

theorem expandUpd_frontier_set (slv : Solver) (maxd : Nat) (cur : State)
    (rest : List State) :
    (expandUpd slv maxd cur rest).frontier_set =
      (expandFold slv maxd cur rest).1.frontier_set := rfl

theorem expandUpd_algo (slv : Solver) (maxd : Nat) (cur : State)
    (rest : List State) :
    (expandUpd slv maxd cur rest).algo =
      (expandFold slv maxd cur rest).1.algo := rfl

theorem expandUpd_explored (slv : Solver) (maxd : Nat) (cur : State)
    (rest : List State) :
    (expandUpd slv maxd cur rest).explored =
      addSet (expandFold slv maxd cur rest).1.explored cur.tiles := rfl

/-- The shared facts about the solver state at the end of a non-goal
iteration (common to the `.next` and `.failure` outcomes). -/
theorem expand_core (n : Nat) (hn : 0 < n) (root : List Nat) (slv : Solver)
    (maxd : Nat) (cur : State) (rest : List State) (hinv : SInv n root slv)
    (hp : popCur slv.algo slv.frontier = some (cur, rest))
    (hgf : NPuzzleSolver.isFinalState cur = false) :
    SInv n root (expandUpd slv maxd cur rest) ∧
    (expandUpd slv maxd cur rest).algo = slv.algo ∧
    cur ∈ slv.frontier ∧
    slv.frontier.Perm (cur :: rest) ∧
    (expandUpd slv maxd cur rest).explored = slv.explored ++ [cur.tiles] ∧
    goalCheck cur.tiles = false ∧
    ∃ ws,
      (∀ w ∈ ws, ChildProp n root cur w ∧ w.tiles ∉ slv.explored ∧
        w.tiles ∉ slv.frontier_set.erase cur.tiles) ∧
      (expandUpd slv maxd cur rest).frontier.Perm (rest ++ ws) ∧
      ((slv.algo = .bfs ∨ slv.algo = .dfs) →
        (expandUpd slv maxd cur rest).frontier = rest ++ ws) ∧
      (∀ t ∈ cur.generate_possible_states,
        t.tiles ∈ (expandUpd slv maxd cur rest).explored ∨
          t.tiles ∈ (expandUpd slv maxd cur rest).frontier_set) ∧
      (∀ b2 ∈ slv.frontier_set.erase cur.tiles,
        b2 ∈ (expandUpd slv maxd cur rest).frontier_set) := by
  obtain ⟨hcm, hfp, hmid⟩ := pop_mid n root slv cur rest hinv hp
  have hwfc := hinv.fr_wf cur hcm
  have hpermc := hinv.fr_perm cur hcm
  have hokc := hinv.fr_ok cur hcm
  have hgc : goalCheck cur.tiles = false := hgf
  have hprops : ∀ t ∈ expandNs slv cur, ChildProp n root cur t := by
    intro t ht
    apply childProp_of_generate n hn root cur hwfc hpermc hokc
    rw [expandNs] at ht
    by_cases hdfs : slv.algo = .dfs
    · rw [if_pos hdfs] at ht
      exact List.mem_reverse.mp ht
    · rw [if_neg hdfs] at ht
      exact ht
  obtain ⟨q1, q2, q3, q4, q5, ws, qw, qperm, qeq⟩ :=
    fold_insert n root cur (expandNs slv cur) (popUpdate slv cur rest)
      maxd hprops hmid
  have hq1 : PopInv n root cur (expandFold slv maxd cur rest).1 := q1
  have hq2 : (expandFold slv maxd cur rest).1.explored = slv.explored :=
    q2
  have hq3 : (expandFold slv maxd cur rest).1.algo = slv.algo := q3
  have hq4 : ∀ b ∈ slv.frontier_set.erase cur.tiles,
      b ∈ (expandFold slv maxd cur rest).1.frontier_set := q4
  have hq5 : ∀ t ∈ expandNs slv cur,
      t.tiles ∈ (expandFold slv maxd cur rest).1.explored ∨
        t.tiles ∈ (expandFold slv maxd cur rest).1.frontier_set := q5
  have hqw : ∀ w ∈ ws, w ∈ expandNs slv cur ∧
      w.tiles ∉ slv.explored ∧
      w.tiles ∉ slv.frontier_set.erase cur.tiles := qw
  have hqperm :
      (expandFold slv maxd cur rest).1.frontier.Perm (rest ++ ws) :=
    qperm
  have hqeq : (slv.algo = .bfs ∨ slv.algo = .dfs) →
      (expandFold slv maxd cur rest).1.frontier = rest ++ ws :=
    fun h => qeq h
  have hcne : cur.tiles ∉ slv.explored := hmid.cur_not_exp
  have hcns : cur.tiles ∉ (expandFold slv maxd cur rest).1.frontier_set :=
    hq1.cur_not_set
  have hexp' : (expandUpd slv maxd cur rest).explored =
      slv.explored ++ [cur.tiles] := by
    rw [expandUpd_explored, hq2, addSet, if_neg hcne]
  have hgen_cov : ∀ t ∈ cur.generate_possible_states,
      t.tiles ∈ (expandUpd slv maxd cur rest).explored ∨
        t.tiles ∈ (expandUpd slv maxd cur rest).frontier_set := by
    intro t ht
    have htns : t ∈ expandNs slv cur := by
      rw [expandNs]
      by_cases hdfs : slv.algo = .dfs
      · rw [if_pos hdfs]
        exact List.mem_reverse.mpr ht
      · rw [if_neg hdfs]
        exact ht
    rcases hq5 t htns with h | h
    · left
      rw [hexp']
      rw [hq2] at h
      exact List.mem_append_left _ h
    · right
      rw [expandUpd_frontier_set]
      exact h
  have hsinv : SInv n root (expandUpd slv maxd cur rest) := by
    refine ⟨?_, ?_, ?_, ?_, ?_, ?_, ?_, ?_, ?_, ?_, ?_, ?_⟩
    · intro s hs
      rw [expandUpd_frontier] at hs
      exact hq1.fr_wf s hs
    · intro s hs
      rw [expandUpd_frontier] at hs
      exact hq1.fr_perm s hs
    · intro s hs
      rw [expandUpd_frontier] at hs
      exact hq1.fr_ok s hs
    · rw [expandUpd_frontier_set, expandUpd_frontier]
      exact hq1.sync
    · rw [expandUpd_frontier_set]
      exact hq1.set_nd
    · rw [hexp']
      exact ((List.perm_append_singleton _ _).nodup_iff).mpr
        (List.nodup_cons.mpr ⟨hcne, hinv.exp_nd⟩)
    · intro b hb
      rw [hexp'] at hb
      rw [expandUpd_frontier_set]
      rcases List.mem_append.mp hb with h | h
      · exact hq1.disj b (by rw [hq2]; exact h)
      · rw [List.mem_singleton] at h
        subst h
        exact hcns
    · intro b hb
      rw [hexp'] at hb
      rcases List.mem_append.mp hb with h | h
      · exact hinv.exp_perm b h
      · rw [List.mem_singleton] at h
        subst h
        exact hpermc
    · intro b hb b2 hstep
      rw [hexp'] at hb
      rcases List.mem_append.mp hb with h | h
      · rcases hq1.closed3 b (by rw [hq2]; exact h) b2 hstep with
          h2 | h2 | h2
        · left
          rw [hexp']
          rw [hq2] at h2
          exact List.mem_append_left _ h2
        · right
          rw [expandUpd_frontier_set]
          exact h2
        · left
          rw [hexp', h2]
          exact List.mem_append_right _ (by simp)
      · rw [List.mem_singleton] at h
        subst h
        obtain ⟨t, htg, hteq⟩ := step_mem_generate cur hwfc b2 hstep
        rw [← hteq]
        exact hgen_cov t htg
    · rcases hq1.root_mem3 with h | h | h
      · left
        rw [hexp']
        rw [hq2] at h
        exact List.mem_append_left _ h
      · right
        rw [expandUpd_frontier_set]
        exact h
      · left
        rw [hexp', h]
        exact List.mem_append_right _ (by simp)
    · intro b hb
      rw [hexp'] at hb
      rcases List.mem_append.mp hb with h | h
      · exact hinv.exp_not_goal b h
      · rw [List.mem_singleton] at h
        subst h
        exact hgc
    · intro b hb
      rw [hexp'] at hb
      rcases List.mem_append.mp hb with h | h
      · exact hinv.exp_reach b h
      · rw [List.mem_singleton] at h
        subst h
        exact ⟨cur.depth, NodeOK.reach root cur hokc⟩
  refine ⟨hsinv, ?_, hcm, hfp, hexp', hgc, ws, ?_, ?_, ?_, hgen_cov, ?_⟩
  · rw [expandUpd_algo]
    exact hq3
  · intro w hw
    obtain ⟨hw1, hw2, hw3⟩ := hqw w hw
    exact ⟨hprops w hw1, hw2, hw3⟩
  · rw [expandUpd_frontier]
    exact hqperm
  · intro h
    rw [expandUpd_frontier]
    exact hqeq h
  · intro b2 hb2
    rw [expandUpd_frontier_set]
    exact hq4 b2 hb2

/-- A `.next` outcome of one loop iteration under the invariant: the
invariant still holds, the strategy is unchanged, the popped board joins
the explored set, the popped board fails the goal test, and the frontier
loses the popped node and gains exactly the fresh children (appended in
order for BFS/DFS). -/
theorem body_next (n : Nat) (hn : 0 < n) (root : List Nat) (slv : Solver)
    (maxd : Nat) (slv' : Solver) (maxd' : Nat) (hinv : SInv n root slv)
    (hbody : solveBody slv maxd = .next slv' maxd') :
    SInv n root slv' ∧ slv'.algo = slv.algo ∧
    ∃ cur rest ws,
      popCur slv.algo slv.frontier = some (cur, rest) ∧
      cur ∈ slv.frontier ∧
      slv.frontier.Perm (cur :: rest) ∧
      slv'.explored = slv.explored ++ [cur.tiles] ∧
      goalCheck cur.tiles = false ∧
      (∀ w ∈ ws, ChildProp n root cur w ∧ w.tiles ∉ slv.explored ∧
        w.tiles ∉ slv.frontier_set.erase cur.tiles) ∧
      slv'.frontier.Perm (rest ++ ws) ∧
      ((slv.algo = .bfs ∨ slv.algo = .dfs) → slv'.frontier = rest ++ ws) ∧
      (∀ t ∈ cur.generate_possible_states,
        t.tiles ∈ slv'.explored ∨ t.tiles ∈ slv'.frontier_set) ∧
      (∀ b2 ∈ slv.frontier_set.erase cur.tiles, b2 ∈ slv'.frontier_set) ∧
      slv'.frontier ≠ [] := by
  cases hp : popCur slv.algo slv.frontier with
  | none =>
    rw [solveBody_stuck slv maxd hp] at hbody
    cases hbody
  | some cr =>
    obtain ⟨cur, rest⟩ := cr
    by_cases hgoal : NPuzzleSolver.isFinalState cur = true
    · rw [solveBody_goal slv maxd cur rest hp hgoal] at hbody
      cases hbody
    · have hgf : NPuzzleSolver.isFinalState cur = false := by
        cases h : NPuzzleSolver.isFinalState cur
        · rfl
        · exact absurd h hgoal
      rw [solveBody_expand slv maxd cur rest hp hgf] at hbody
      by_cases hemp : (expandFold slv maxd cur rest).1.frontier.isEmpty = true
      · rw [if_pos hemp] at hbody
        cases hbody
      · rw [if_neg hemp] at hbody
        rw [StepOut.next.injEq] at hbody
        obtain ⟨h1, h2⟩ := hbody
        subst h1
        subst h2
        obtain ⟨c1, c2, c3, c4, c5, c6, ws, c7, c8, c9, c10, c11⟩ :=
          expand_core n hn root slv maxd cur rest hinv hp hgf
        refine ⟨c1, c2, cur, rest, ws, rfl, c3, c4, c5, c6, c7, c8, c9, c10,
          c11, ?_⟩
        intro hnil
        apply hemp
        rw [← expandUpd_frontier, hnil]
        rfl

/-- A `.failure` outcome of one loop iteration under the invariant: the
invariant still holds for the final solver state and its frontier is
empty. -/
theorem body_failure (n : Nat) (hn : 0 < n) (root : List Nat) (slv : Solver)
    (maxd : Nat) (slv2 : Solver) (hinv : SInv n root slv)
    (hbody : solveBody slv maxd = .failure slv2) :
    SInv n root slv2 ∧ slv2.frontier = [] := by
  cases hp : popCur slv.algo slv.frontier with
  | none =>
    rw [solveBody_stuck slv maxd hp] at hbody
    cases hbody
  | some cr =>
    obtain ⟨cur, rest⟩ := cr
    by_cases hgoal : NPuzzleSolver.isFinalState cur = true
    · rw [solveBody_goal slv maxd cur rest hp hgoal] at hbody
      cases hbody
    · have hgf : NPuzzleSolver.isFinalState cur = false := by
        cases h : NPuzzleSolver.isFinalState cur
        · rfl
        · exact absurd h hgoal
      rw [solveBody_expand slv maxd cur rest hp hgf] at hbody
      by_cases hemp : (expandFold slv maxd cur rest).1.frontier.isEmpty = true
      · rw [if_pos hemp] at hbody
        rw [StepOut.failure.injEq] at hbody
        subst hbody
        obtain ⟨c1, _⟩ := expand_core n hn root slv maxd cur rest hinv hp hgf
        refine ⟨c1, ?_⟩
        rw [expandUpd_frontier]
        exact List.isEmpty_iff.mp hemp
      · rw [if_neg hemp] at hbody
        cases hbody

/-- A `.success` outcome under the invariant: the returned cost equals
the depth of the popped node, whose board is the canonical goal and is
reachable from the root in exactly that many moves. -/
theorem body_success (n : Nat) (root : List Nat) (slv : Solver) (maxd : Nat)
    (stats : Stats) (slv2 : Solver) (hinv : SInv n root slv)
    (hbody : solveBody slv maxd = .success stats slv2) :
    ∃ cur rest,
      popCur slv.algo slv.frontier = some (cur, rest) ∧
      cur ∈ slv.frontier ∧
      stats.cost_of_path = cur.depth ∧
      ReachN cur.depth root cur.tiles ∧
      cur.tiles = List.range (n * n) := by
  cases hp : popCur slv.algo slv.frontier with
  | none =>
    rw [solveBody_stuck slv maxd hp] at hbody
    cases hbody
  | some cr =>
    obtain ⟨cur, rest⟩ := cr
    by_cases hgoal : NPuzzleSolver.isFinalState cur = true
    · rw [solveBody_goal slv maxd cur rest hp hgoal] at hbody
      rw [StepOut.success.injEq] at hbody
      obtain ⟨h1, h2⟩ := hbody
      subst h1
      obtain ⟨hcm, hfp, hmid⟩ := pop_mid n root slv cur rest hinv hp
      have hokc := hinv.fr_ok cur hcm
      have hpermc := hinv.fr_perm cur hcm
      have hsol := NodeOK.sol root cur hokc
      have hgc : goalCheck cur.tiles = true := hgoal
      have hlen : cur.tiles.length = n * n := by
        rw [hpermc.length_eq, List.length_range]
      have htg : cur.tiles = List.range (n * n) := by
        have h := (goalCheck_iff cur.tiles (by rw [hlen]; exact hpermc)).mp hgc
        rw [hlen] at h
        exact h
      exact ⟨cur, rest, rfl, hcm, hsol.2, NodeOK.reach root cur hokc, htg⟩
    · have hgf : NPuzzleSolver.isFinalState cur = false := by
        cases h : NPuzzleSolver.isFinalState cur
        · rfl
        · exact absurd h hgoal
      rw [solveBody_expand slv maxd cur rest hp hgf] at hbody
      by_cases hemp : (expandFold slv maxd cur rest).1.frontier.isEmpty = true
      · rw [if_pos hemp] at hbody
        cases hbody
      · rw [if_neg hemp] at hbody
        cases hbody

theorem addSet_nil (t : List Nat) : addSet [] t = [t] := by
  rw [addSet, if_neg (List.not_mem_nil t)]
  rfl

theorem init_frontier_perm (algo : Algo) (s0 : State) :
    (NPuzzleSolver.init ⟨[], []⟩ algo s0).frontier.Perm [s0] := by
  cases algo with
  | bfs => exact List.Perm.refl _
  | dfs => exact List.Perm.refl _
  | ast => exact heappush_perm [] s0

/-- The solver built by a fresh run satisfies the loop invariant. -/
theorem init_SInv (n : Nat) (b : List Nat)
    (hperm : b.Perm (List.range (n * n))) (algo : Algo) :
    SInv n b (NPuzzleSolver.init ⟨[], []⟩ algo (State.init b none 0)) := by
  have hfr := init_frontier_perm algo (State.init b none 0)
  have hmem : ∀ s ∈ (NPuzzleSolver.init ⟨[], []⟩ algo
      (State.init b none 0)).frontier, s = State.init b none 0 :=
    fun s hs => List.mem_singleton.mp (hfr.mem_iff.mp hs)
  have htiles : (State.init b none 0).tiles = b := State.init_tiles b none 0
  have hset : (NPuzzleSolver.init ⟨[], []⟩ algo
      (State.init b none 0)).frontier_set = [(State.init b none 0).tiles] := by
    show addSet [] (State.init b none 0).tiles = _
    rw [addSet_nil]
  refine ⟨?_, ?_, ?_, ?_, ?_, ?_, ?_, ?_, ?_, ?_, ?_, ?_⟩
  · intro s hs
    rw [hmem s hs]
    exact WF_init b none 0
  · intro s hs
    rw [hmem s hs, htiles]
    exact hperm
  · intro s hs
    rw [hmem s hs]
    exact NodeOK.root _ (State.init_parent b none 0)
      (State.init_parent_move b none 0) (State.init_depth b none 0) htiles
  · rw [hset]
    exact (hfr.map State.tiles).symm
  · rw [hset]
    exact List.nodup_singleton _
  · exact List.nodup_nil
  · intro x hx
    simp only [NPuzzleSolver.init] at hx
    simp at hx
  · intro x hx
    simp only [NPuzzleSolver.init] at hx
    simp at hx
  · intro x hx
    simp only [NPuzzleSolver.init] at hx
    simp at hx
  · right
    rw [hset, htiles]
    exact List.mem_singleton.mpr rfl
  · intro x hx
    simp only [NPuzzleSolver.init] at hx
    simp at hx
  · intro x hx
    simp only [NPuzzleSolver.init] at hx
    simp at hx

/-- The extra invariant of the BFS strategy: every frontier node's depth
is its true distance from the root, depths are nondecreasing along the
queue and within 1 of each other, and every board at distance at most
the head's depth is already in the explored set or the frontier
membership set. -/
structure BfsInv (n : Nat) (root : List Nat) (slv : Solver) : Prop where
  dep_dist : ∀ s ∈ slv.frontier, IsDist root s.tiles s.depth
  sorted : slv.frontier.Pairwise (fun a b2 => a.depth ≤ b2.depth)
  spread : ∀ a ∈ slv.frontier, ∀ b2 ∈ slv.frontier, a.depth ≤ b2.depth + 1
  boundary : ∀ hd, slv.frontier.head? = some hd → ∀ b2 e, IsDist root b2 e →
    e ≤ hd.depth → b2 ∈ slv.explored ∨ b2 ∈ slv.frontier_set

theorem init_BfsInv (n : Nat) (b : List Nat) :
    BfsInv n b (NPuzzleSolver.init ⟨[], []⟩ .bfs (State.init b none 0)) := by
  have hfr : (NPuzzleSolver.init ⟨[], []⟩ Algo.bfs
      (State.init b none 0)).frontier = [State.init b none 0] := rfl
  have htiles := State.init_tiles b none 0
  have hdep := State.init_depth b none 0
  refine ⟨?_, ?_, ?_, ?_⟩
  · intro s hs
    rw [hfr] at hs
    rw [List.mem_singleton.mp hs, htiles, hdep]
    exact ⟨(reachN_zero b b).mpr rfl, fun k _ => Nat.zero_le k⟩
  · rw [hfr]
    exact List.pairwise_singleton _ _
  · intro a ha b2 hb2
    rw [hfr] at ha
    rw [List.mem_singleton.mp ha, hdep]
    exact Nat.zero_le _
  · intro hd hhd b2 e hdist hle
    rw [hfr] at hhd
    have hhd' : hd = State.init b none 0 := by
      simpa using hhd.symm
    subst hhd'
    rw [hdep] at hle
    have he : e = 0 := Nat.le_zero.mp hle
    subst he
    have hb2 : b2 = b := ((reachN_zero b b2).mp hdist.1).symm
    right
    show b2 ∈ addSet [] (State.init b none 0).tiles
    rw [addSet_nil, htiles, hb2]
    exact List.mem_singleton.mpr rfl

theorem isDist_unique (a b2 : List Nat) (d1 d2 : Nat)
    (h1 : IsDist a b2 d1) (h2 : IsDist a b2 d2) : d1 = d2 :=
  Nat.le_antisymm (h1.2 d2 h2.1) (h2.2 d1 h1.1)

/-- Every reachable board has a well-defined distance. -/
theorem exists_isDist (a b2 : List Nat) :
    ∀ k, ReachN k a b2 → ∃ d, IsDist a b2 d := by
  intro k
  induction k using Nat.strong_induction_on with
  | _ k ih =>
    intro hk
    by_cases h : ∃ j, j < k ∧ ReachN j a b2
    · obtain ⟨j, hj, hr⟩ := h
      exact ih j hj hr
    · push_neg at h
      exact ⟨k, hk, fun m hm => le_of_not_lt (fun hlt => h m hlt hm)⟩

/-- A nodup list of permutations of the solved board is no longer than
the list of all permutations. -/
theorem explored_le (n : Nat) (l : List (List Nat)) (hnd : l.Nodup)
    (hp : ∀ x ∈ l, x.Perm (List.range (n * n))) :
    l.length ≤ (List.permutations (List.range (n * n))).length := by
  have h2 : l.toFinset ⊆ (List.permutations (List.range (n * n))).toFinset := by
    intro x hx
    rw [List.mem_toFinset] at hx
    rw [List.mem_toFinset]
    exact (List.mem_permutations).mpr (hp x hx)
  calc l.length = l.toFinset.card := (List.toFinset_card_of_nodup hnd).symm
    _ ≤ (List.permutations (List.range (n * n))).toFinset.card :=
        Finset.card_le_card h2
    _ ≤ (List.permutations (List.range (n * n))).length :=
        List.toFinset_card_le _

theorem pairwise_depth_of_const (l : List State) (d : Nat)
    (h : ∀ x ∈ l, x.depth = d) :
    l.Pairwise (fun a b2 => a.depth ≤ b2.depth) := by
  induction l with
  | nil => exact List.Pairwise.nil
  | cons x xs ih =>
    refine List.Pairwise.cons ?_ (ih (fun y hy => h y (List.mem_cons_of_mem _ hy)))
    intro y hy
    rw [h x (List.mem_cons_self _ _), h y (List.mem_cons_of_mem _ hy)]

/-- One BFS iteration preserves the BFS depth invariant. -/
theorem bfs_preserve (n : Nat) (hn : 0 < n) (root : List Nat) (slv : Solver)
    (maxd : Nat) (slv' : Solver) (maxd' : Nat) (halgo : slv.algo = .bfs)
    (hinv : SInv n root slv) (hbfs : BfsInv n root slv)
    (hbody : solveBody slv maxd = .next slv' maxd') :
    BfsInv n root slv' := by
  obtain ⟨hsinv', halgo', cur, rest, ws, hp, hcm, hfperm, hexp', hgc, hws,
    hfperm', hfeq, hcov, hmono, hne'⟩ :=
    body_next n hn root slv maxd slv' maxd' hinv hbody
  have hwfc : WF cur := hinv.fr_wf cur hcm
  have hfr' : slv'.frontier = rest ++ ws := hfeq (Or.inl halgo)
  have hfr_eq : slv.frontier = cur :: rest := by
    rw [halgo] at hp
    cases hf : slv.frontier with
    | nil =>
      rw [hf] at hp
      cases hp
    | cons c r =>
      rw [hf] at hp
      have h2 : some (c, r) = some (cur, rest) := hp
      have h3 := Option.some_inj.mp h2
      injection h3 with h4 h5
      rw [h4, h5]
  have hsort_old := hbfs.sorted
  rw [hfr_eq] at hsort_old
  have hcr : ∀ s ∈ rest, cur.depth ≤ s.depth :=
    (List.pairwise_cons.mp hsort_old).1
  have hrest_sorted := (List.pairwise_cons.mp hsort_old).2
  have hdist_cur : IsDist root cur.tiles cur.depth := hbfs.dep_dist cur hcm
  have hsp_old : ∀ a ∈ slv.frontier, a.depth ≤ cur.depth + 1 :=
    fun a ha => hbfs.spread a ha cur hcm
  have hhead : slv.frontier.head? = some cur := by
    rw [hfr_eq]
    rfl
  have hbnd := hbfs.boundary cur hhead
  have hwd : ∀ w ∈ ws, w.depth = cur.depth + 1 := fun w hw =>
    (hws w hw).1.2.2.1
  have hwdist : ∀ w ∈ ws, IsDist root w.tiles w.depth := by
    intro w hw
    obtain ⟨cp, hnexp, hnset⟩ := hws w hw
    obtain ⟨hwf2, hperm2, hdep, hok, hne, hstep⟩ := cp
    have hreach : ReachN (cur.depth + 1) root w.tiles :=
      (reachN_succ_back cur.depth root w.tiles).mpr
        ⟨cur.tiles, hdist_cur.1, hstep⟩
    obtain ⟨e, he⟩ := exists_isDist root w.tiles _ hreach
    have hele : e ≤ cur.depth + 1 := he.2 _ hreach
    by_cases hecd : e ≤ cur.depth
    · exfalso
      rcases hbnd w.tiles e he hecd with h | h
      · exact hnexp h
      · exact hnset ((mem_erase_iff' _ _ _ hinv.set_nd).mpr ⟨hne, h⟩)
    · have heq : e = cur.depth + 1 := by omega
      rw [hdep, ← heq]
      exact he
  refine ⟨?_, ?_, ?_, ?_⟩
  · intro s hs
    rw [hfr'] at hs
    rcases List.mem_append.mp hs with h | h
    · exact hbfs.dep_dist s (by rw [hfr_eq]; exact List.mem_cons_of_mem _ h)
    · exact hwdist s h
  · rw [hfr', List.pairwise_append]
    refine ⟨hrest_sorted, pairwise_depth_of_const ws (cur.depth + 1) hwd, ?_⟩
    intro a ha w hw
    have h1 : a.depth ≤ cur.depth + 1 :=
      hsp_old a (by rw [hfr_eq]; exact List.mem_cons_of_mem _ ha)
    rw [hwd w hw]
    exact h1
  · intro a ha b2 hb2
    rw [hfr'] at ha hb2
    have hb2dep : cur.depth ≤ b2.depth := by
      rcases List.mem_append.mp hb2 with h | h
      · exact hcr b2 h
      · rw [hwd b2 h]
        omega
    rcases List.mem_append.mp ha with h | h
    · have := hsp_old a (by rw [hfr_eq]; exact List.mem_cons_of_mem _ h)
      omega
    · rw [hwd a h]
      omega
  · intro hd' hhd' b2 e hdist hle
    have hup : ∀ x, x ∈ slv.explored ∨ x ∈ slv.frontier_set →
        x ∈ slv'.explored ∨ x ∈ slv'.frontier_set := by
      intro x hx
      rcases hx with h | h
      · left
        rw [hexp']
        exact List.mem_append_left _ h
      · by_cases hxc : x = cur.tiles
        · left
          rw [hexp', hxc]
          exact List.mem_append_right _ (by simp)
        · right
          exact hmono x ((mem_erase_iff' _ _ _ hinv.set_nd).mpr ⟨hxc, h⟩)
    by_cases hecd : e ≤ cur.depth
    · exact hup b2 (hbnd b2 e hdist hecd)
    · have hd'mem : hd' ∈ rest ++ ws := by
        rw [← hfr']
        exact List.mem_of_mem_head? (Option.mem_def.mpr hhd')
      have hd'le : hd'.depth ≤ cur.depth + 1 := by
        rcases List.mem_append.mp hd'mem with h | h
        · exact hsp_old hd' (by rw [hfr_eq]; exact List.mem_cons_of_mem _ h)
        · rw [hwd hd' h]
      have heq : e = cur.depth + 1 := by omega
      subst heq
      obtain ⟨c, hc_reach, hc_step⟩ :=
        (reachN_succ_back cur.depth root b2).mp hdist.1
      obtain ⟨ec, hec⟩ := exists_isDist root c cur.depth hc_reach
      have hecle : ec ≤ cur.depth := hec.2 cur.depth hc_reach
      rcases hbnd c ec hec hecle with hcexp | hcset
      · rcases hinv.closed c hcexp b2 hc_step with h | h
        · exact hup b2 (Or.inl h)
        · exact hup b2 (Or.inr h)
      · have hcmap : c ∈ slv.frontier.map State.tiles :=
          hinv.sync.mem_iff.mp hcset
        obtain ⟨s, hs_mem, hs_tiles⟩ := List.mem_map.mp hcmap
        rw [hfr_eq] at hs_mem
        rcases List.mem_cons.mp hs_mem with hseq | hsrest
        · subst hseq
          rw [← hs_tiles] at hc_step
          obtain ⟨t, htg, hteq⟩ := step_mem_generate s hwfc b2 hc_step
          rw [← hteq]
          exact hcov t htg
        · exfalso
          have hs_dist : IsDist root s.tiles s.depth :=
            hbfs.dep_dist s (by rw [hfr_eq]; exact List.mem_cons_of_mem _ hsrest)
          rw [hs_tiles] at hs_dist
          have hsd : s.depth = ec := isDist_unique root c _ _ hs_dist hec
          cases rest with
          | nil => simp at hsrest
          | cons r0 rest' =>
            have hhd'' : hd' = r0 := by
              rw [hfr'] at hhd'
              simpa using hhd'.symm
            have hr0le : r0.depth ≤ s.depth := by
              rcases List.mem_cons.mp hsrest with h | h
              · rw [h]
              · exact (List.pairwise_cons.mp hrest_sorted).1 s h
            rw [hhd''] at hle
            omega

theorem solveBody_not_stuck (slv : Solver) (maxd : Nat)
    (hne : slv.frontier ≠ []) : solveBody slv maxd ≠ .stuck := by
  intro hbody
  obtain ⟨cur, rest, hpop, _⟩ := popCur_spec slv.algo slv.frontier hne
  by_cases hgoal : NPuzzleSolver.isFinalState cur = true
  · rw [solveBody_goal slv maxd cur rest hpop hgoal] at hbody
    cases hbody
  · have hgf : NPuzzleSolver.isFinalState cur = false := by
      cases h : NPuzzleSolver.isFinalState cur
      · rfl
      · exact absurd h hgoal
    rw [solveBody_expand slv maxd cur rest hpop hgf] at hbody
    by_cases hemp : (expandFold slv maxd cur rest).1.frontier.isEmpty = true
    · rw [if_pos hemp] at hbody
      cases hbody
    · rw [if_neg hemp] at hbody
      cases hbody

theorem solveLoop_succ (fuel : Nat) (slv : Solver) (maxd : Nat) :
    solveLoop (fuel + 1) slv maxd =
      match solveBody slv maxd with
      | .success stats _ => some (some stats)
      | .failure _ => some none
      | .stuck => none
      | .next slv' maxd' => solveLoop fuel slv' maxd' := rfl

/-- The master run lemma: from any state satisfying the invariant whose
frontier is nonempty, with enough fuel, the loop returns a success whose
cost is at least the true distance of the goal — with equality for the
BFS strategy. -/
theorem run_returns (n : Nat) (hn : 0 < n) (root : List Nat) (d : Nat)
    (hd : IsDist root (List.range (n * n)) d) :
    ∀ fuel slv maxd,
      SInv n root slv → slv.frontier ≠ [] →
      (List.permutations (List.range (n * n))).length <
        slv.explored.length + fuel →
      (slv.algo = .bfs → BfsInv n root slv) →
      ∃ stats, solveLoop fuel slv maxd = some (some stats) ∧
        d ≤ stats.cost_of_path ∧
        (slv.algo = .bfs → stats.cost_of_path = d) := by
  intro fuel
  induction fuel with
  | zero =>
    intro slv maxd hinv hne hfuel hb
    exfalso
    have := explored_le n slv.explored hinv.exp_nd hinv.exp_perm
    omega
  | succ fuel ih =>
    intro slv maxd hinv hne hfuel hb
    cases hbody : solveBody slv maxd with
    | stuck => exact absurd hbody (solveBody_not_stuck slv maxd hne)
    | success stats slv2 =>
      obtain ⟨cur, rest, hpop, hcm, hcost, hreach, htiles⟩ :=
        body_success n root slv maxd stats slv2 hinv hbody
      refine ⟨stats, ?_, ?_, ?_⟩
      · rw [solveLoop_succ, hbody]
      · rw [hcost]
        apply hd.2
        rw [← htiles]
        exact hreach
      · intro halgo
        have hbinv := hb halgo
        have hdist : IsDist root cur.tiles cur.depth := hbinv.dep_dist cur hcm
        rw [htiles] at hdist
        rw [hcost]
        exact isDist_unique root _ _ _ hdist hd
    | failure slv2 =>
      exfalso
      obtain ⟨hsinv2, hfr2⟩ := body_failure n hn root slv maxd slv2 hinv hbody
      have hset2 : slv2.frontier_set = [] := by
        have h := hsinv2.sync
        rw [hfr2] at h
        exact h.eq_nil
      have hclosed : ∀ x ∈ slv2.explored, ∀ y, Step x y →
          y ∈ slv2.explored := by
        intro x hx y hstep
        rcases hsinv2.closed x hx y hstep with h | h
        · exact h
        · rw [hset2] at h
          simp at h
      have hroot : root ∈ slv2.explored := by
        rcases hsinv2.root_mem with h | h
        · exact h
        · rw [hset2] at h
          simp at h
      have hreach_exp : ∀ k b2, ReachN k root b2 → b2 ∈ slv2.explored := by
        intro k
        induction k with
        | zero =>
          intro b2 hr
          rw [← (reachN_zero root b2).mp hr]
          exact hroot
        | succ k ih2 =>
          intro b2 hr
          obtain ⟨c, hc, hstep⟩ := (reachN_succ_back k root b2).mp hr
          exact hclosed c (ih2 c hc) b2 hstep
      have hgoal_exp : List.range (n * n) ∈ slv2.explored :=
        hreach_exp d _ hd.1
      have hfalse := hsinv2.exp_not_goal _ hgoal_exp
      rw [goalCheck_range] at hfalse
      cases hfalse
    | next slv' maxd' =>
      obtain ⟨hsinv', halgo', cur, rest, ws, hpop, hcm, hfperm, hexp', hgc,
        hws, hfperm', hfeq, hcov, hmono, hne'⟩ :=
        body_next n hn root slv maxd slv' maxd' hinv hbody
      have hlen1 : (slv.explored ++ [cur.tiles]).length =
          slv.explored.length + 1 := by
        simp
      have hfuel' : (List.permutations (List.range (n * n))).length <
          slv'.explored.length + fuel := by
        rw [hexp', hlen1]
        omega
      have hb' : slv'.algo = .bfs → BfsInv n root slv' := by
        intro ha'
        have halgo0 : slv.algo = .bfs := by
          rw [← halgo']
          exact ha'
        exact bfs_preserve n hn root slv maxd slv' maxd' halgo0 hinv
          (hb halgo0) hbody
      obtain ⟨stats, hloop, hge, hbeq⟩ := ih slv' maxd' hsinv' hne' hfuel' hb'
      refine ⟨stats, ?_, hge, ?_⟩
      · rw [solveLoop_succ, hbody]
        exact hloop
      · intro ha
        apply hbeq
        rw [halgo']
        exact ha

/-- Any success returned by the loop reports a cost for which a real
move sequence from the root to the goal exists. -/
theorem success_cost_reach (n : Nat) (hn : 0 < n) (root : List Nat) :
    ∀ fuel slv maxd stats, SInv n root slv →
      solveLoop fuel slv maxd = some (some stats) →
      ReachN stats.cost_of_path root (List.range (n * n)) := by
  intro fuel
  induction fuel with
  | zero =>
    intro slv maxd stats hinv hloop
    cases hloop
  | succ fuel ih =>
    intro slv maxd stats hinv hloop
    rw [solveLoop_succ] at hloop
    cases hbody : solveBody slv maxd with
    | stuck =>
      rw [hbody] at hloop
      cases hloop
    | failure slv2 =>
      rw [hbody] at hloop
      simp at hloop
    | success stats2 slv2 =>
      rw [hbody] at hloop
      have hst : stats2 = stats := by
        simpa using hloop
      subst hst
      obtain ⟨cur, rest, hpop, hcm, hcost, hreach, htiles⟩ :=
        body_success n root slv maxd stats2 slv2 hinv hbody
      rw [hcost, ← htiles]
      exact hreach
    | next slv' maxd' =>
      rw [hbody] at hloop
      obtain ⟨hsinv', _⟩ := body_next n hn root slv maxd slv' maxd' hinv hbody
      exact ih slv' maxd' stats hsinv' hloop

/-- C1 (amended).  For a board that is a permutation of the solved one
whose goal lies at true distance `d`, the BFS strategy terminates with
`cost_of_path` exactly `d` (BFS is optimal), and every success any
strategy ever returns (DFS, A* included) has `cost_of_path ≥ d`.  The
original claim further asserts A* also always returns exactly `d`; that
part is refuted by the concrete counterexample. -/
theorem solve_cost_optimality (n : Nat) (hn : 0 < n) (b : List Nat)
    (hperm : b.Perm (List.range (n * n))) (d : Nat)
    (hd : IsDist b (List.range (n * n)) d) :
    (∃ fuel stats, NPuzzleSolver.solve .bfs b fuel = some (some stats) ∧
      stats.cost_of_path = d) ∧
    (∀ algo fuel stats, NPuzzleSolver.solve algo b fuel = some (some stats) →
      d ≤ stats.cost_of_path) := by
  constructor
  · have hinit := init_SInv n b hperm .bfs
    have hbinv := init_BfsInv n b
    have hne : (NPuzzleSolver.init ⟨[], []⟩ .bfs
        (State.init b none 0)).frontier ≠ [] := by
      intro h
      have hperm1 := init_frontier_perm .bfs (State.init b none 0)
      rw [h] at hperm1
      have h2 := hperm1.length_eq
      simp at h2
    have hexp0 : (NPuzzleSolver.init ⟨[], []⟩ Algo.bfs
        (State.init b none 0)).explored = [] := rfl
    have hfuel : (List.permutations (List.range (n * n))).length <
        (NPuzzleSolver.init ⟨[], []⟩ Algo.bfs
          (State.init b none 0)).explored.length +
          ((List.permutations (List.range (n * n))).length + 1) := by
      rw [hexp0]
      simp
    obtain ⟨stats, hloop, hge, hbeq⟩ := run_returns n hn b d hd
      ((List.permutations (List.range (n * n))).length + 1)
      (NPuzzleSolver.init ⟨[], []⟩ .bfs (State.init b none 0)) 0 hinit hne
      hfuel (fun _ => hbinv)
    exact ⟨_, stats, hloop, hbeq rfl⟩
  · intro algo fuel stats hsolve
    have hinit := init_SInv n b hperm algo
    have hreach := success_cost_reach n hn b fuel
      (NPuzzleSolver.init ⟨[], []⟩ algo (State.init b none 0)) 0 stats hinit
      hsolve
    exact hd.2 _ hreach

/-- Witness for C1 on the board `[1,0,2,3]`, one move from solved. -/
theorem solve_cost_optimality_witness :
    (∃ fuel stats,
      NPuzzleSolver.solve .bfs [1, 0, 2, 3] fuel = some (some stats) ∧
      stats.cost_of_path = 1) ∧
    (∀ algo fuel stats,
      NPuzzleSolver.solve algo [1, 0, 2, 3] fuel = some (some stats) →
      1 ≤ stats.cost_of_path) := by
  apply solve_cost_optimality 2 (by decide) [1, 0, 2, 3] (by decide) 1
  constructor
  · exact ⟨[Move.Left], rfl, by decide⟩
  · intro k hk
    cases k with
    | zero =>
      have h0 := (reachN_zero [1, 0, 2, 3] (List.range (2 * 2))).mp hk
      exact absurd h0 (by decide)
    | succ k => omega

/-- C1 counterexample.  On the board `[5,3,4,1,0,2,6,7,8]` the A*
strategy returns a success with `cost_of_path = 12`, yet an explicit
10-move sequence solves the board, so the true distance is at most 10
and A* did not return a shortest solution length. -/
theorem astar_suboptimal :
    ((NPuzzleSolver.solve .ast [5, 3, 4, 1, 0, 2, 6, 7, 8] 30).map
      (fun o => o.map Stats.cost_of_path) = some (some 12)) ∧
    replay [Move.Up, Move.Left, Move.Down, Move.Right, Move.Up, Move.Right,
        Move.Down, Move.Left, Move.Up, Move.Left] [5, 3, 4, 1, 0, 2, 6, 7, 8] =
      some (List.range (3 * 3)) ∧
    (∀ d, IsDist [5, 3, 4, 1, 0, 2, 6, 7, 8] (List.range (3 * 3)) d →
      d ≤ 10 ∧ d ≠ 12) := by
  refine ⟨by rfl, by decide, ?_⟩
  intro d hd
  have h10 : ReachN 10 [5, 3, 4, 1, 0, 2, 6, 7, 8] (List.range (3 * 3)) :=
    ⟨[Move.Up, Move.Left, Move.Down, Move.Right, Move.Up, Move.Right,
      Move.Down, Move.Left, Move.Up, Move.Left], rfl, by decide⟩
  have hle := hd.2 10 h10
  exact ⟨hle, by omega⟩

theorem runSteps_zero (p : Solver × Nat) : runSteps 0 p = some p := rfl

theorem runSteps_succ (k : Nat) (p : Solver × Nat) :
    runSteps (k + 1) p =
      match solveBody p.1 p.2 with
      | .next slv' maxd' => runSteps k (slv', maxd')
      | _ => none := rfl

/-- The loop invariant holds at every state the loop passes through. -/
theorem runSteps_SInv (n : Nat) (hn : 0 < n) (root : List Nat) :
    ∀ k p slv maxd, SInv n root p.1 →
      runSteps k p = some (slv, maxd) → SInv n root slv := by
  intro k
  induction k with
  | zero =>
    intro p slv maxd hinv hrun
    rw [runSteps_zero] at hrun
    have hp : p = (slv, maxd) := Option.some_inj.mp hrun
    have h1 : p.1 = slv := by rw [hp]
    exact h1 ▸ hinv
  | succ k ih =>
    intro p slv maxd hinv hrun
    rw [runSteps_succ] at hrun
    cases hbody : solveBody p.1 p.2 with
    | next slv' maxd' =>
      rw [hbody] at hrun
      obtain ⟨hsinv', _⟩ := body_next n hn root p.1 p.2 slv' maxd' hinv hbody
      exact ih (slv', maxd') slv maxd hsinv' hrun
    | success s t =>
      rw [hbody] at hrun
      cases hrun
    | failure s =>
      rw [hbody] at hrun
      cases hrun
    | stuck =>
      rw [hbody] at hrun
      cases hrun

/-- C6 (amended).  In a fresh (single-instance) run on a board that is a
permutation of the solved one, after every expansion step of any of the
three strategies the explored set holds no duplicates and is disjoint
from both the frontier membership set and the boards of the frontier
nodes.  With two solver instances in one process the claim fails,
because the class-level sets leak across instances (see the
counterexample). -/
theorem explored_nodup_disjoint (n : Nat) (hn : 0 < n) (b : List Nat)
    (hperm : b.Perm (List.range (n * n))) (algo : Algo) (k : Nat)
    (slv : Solver) (maxd : Nat)
    (hrun : runSteps k
      (NPuzzleSolver.init ⟨[], []⟩ algo (State.init b none 0), 0) =
        some (slv, maxd)) :
    slv.explored.Nodup ∧
    (∀ x ∈ slv.explored, x ∉ slv.frontier_set) ∧
    (∀ x ∈ slv.explored, x ∉ slv.frontier.map State.tiles) := by
  have hinv : SInv n b slv :=
    runSteps_SInv n hn b k _ slv maxd (init_SInv n b hperm algo) hrun
  refine ⟨hinv.exp_nd, hinv.disj, ?_⟩
  intro x hx hmem
  exact hinv.disj x hx (hinv.sync.mem_iff.mpr hmem)

/-- The state reached after one BFS expansion of `[1,0,2,3]`. -/
def c6res : Solver × Nat :=
  (runSteps 1 (NPuzzleSolver.init ⟨[], []⟩ .bfs
    (State.init [1, 0, 2, 3] none 0), 0)).getD
    (NPuzzleSolver.init ⟨[], []⟩ .bfs (State.init [1, 0, 2, 3] none 0), 0)

/-- Witness for C6: the concrete state after one BFS expansion of
`[1,0,2,3]`. -/
theorem explored_nodup_disjoint_witness :
    runSteps 1 (NPuzzleSolver.init ⟨[], []⟩ .bfs
        (State.init [1, 0, 2, 3] none 0), 0) = some c6res ∧
    c6res.1.explored.Nodup ∧
    (∀ x ∈ c6res.1.explored, x ∉ c6res.1.frontier_set) ∧
    (∀ x ∈ c6res.1.explored, x ∉ c6res.1.frontier.map State.tiles) := by
  have hrun : runSteps 1 (NPuzzleSolver.init ⟨[], []⟩ .bfs
      (State.init [1, 0, 2, 3] none 0), 0) = some c6res := rfl
  obtain ⟨h1, h2, h3⟩ := explored_nodup_disjoint 2 (by decide) [1, 0, 2, 3]
    (by decide) .bfs 1 c6res.1 c6res.2 hrun
  exact ⟨hrun, h1, h2, h3⟩

end NPuzzle
